import Mathlib

/-
Verification development for the codot repository: a greedy toxicity-amplification
search (src/src/toxicity_analyzer.py), a sentence splitter (src/src/text_processor.py)
and a batch retry orchestrator (src/main.py), shallowly embedded in Lean.
Toxicity scores are Python floats in the source; the algorithms only compare them
and take maxima, so they are modelled by rational numbers.
-/

namespace Codot

/-- Whitespace test: Python's regex class \s and str.strip character set, on
ASCII input (space, tab, newline, carriage return, vertical tab, form feed). -/
def isWs (c : Char) : Bool :=
  c = ' ' || c = '\t' || c = '\n' || c = '\r' || c = '\x0b' || c = '\x0c'

/-- Terminal sentence punctuation: the regex class [.!?] used in split_text. -/
def isTerminal (c : Char) : Bool :=
  c = '.' || c = '!' || c = '?'

/-- Whether an optional preceding character is terminal punctuation (models the
lookbehind (?<=[.!?]) of the splitting regex; none = no preceding character). -/
def prevTerm : Option Char → Bool
  | none => false
  | some c => isTerminal c

/-- One left-to-right pass implementing Python re.split of one line at the
pattern "whitespace run immediately preceded by terminal punctuation"
(src/src/text_processor.py line 28).  acc holds the current piece reversed;
inWs is true while consuming the whitespace run of a match (during which
acc is empty).  Matches are leftmost, the whitespace run is consumed greedily,
and an empty trailing piece is produced when the line ends inside a match,
exactly as re.split does. -/
def reSplitGo : Bool → List Char → List Char → List (List Char)
  | _, [], acc => [acc.reverse]
  | inWs, c :: rest, acc =>
    if inWs && isWs c && acc.isEmpty then
      reSplitGo true rest acc
    else if isWs c && prevTerm acc.head? then
      acc.reverse :: reSplitGo true rest []
    else
      reSplitGo false rest (c :: acc)

/-- Remove trailing whitespace characters (the right half of Python str.strip). -/
def dropTrailingWs : List Char → List Char
  | [] => []
  | c :: r =>
    match dropTrailingWs r with
    | [] => if isWs c then [] else [c]
    | r' => c :: r'

/-- Python str.strip restricted to ASCII whitespace: drop leading and trailing
whitespace characters. -/
def stripChars (l : List Char) : List Char :=
  dropTrailingWs (l.dropWhile isWs)

/-- Python str.split on a single newline character: text.split of the
newline in split_text (src/src/text_processor.py line 24).  Empty input
yields one empty line, as in Python. -/
def splitLines : List Char → List (List Char)
  | [] => [[]]
  | c :: r =>
    if c = '\n' then [] :: splitLines r
    else
      match splitLines r with
      | [] => [[c]]
      | p :: ps => (c :: p) :: ps

/-- Per-line sentence extraction of split_text (lines 27-31 of
src/src/text_processor.py): regex split, strip each piece, keep non-empty. -/
def processLine (line : List Char) : List (List Char) :=
  ((reSplitGo false line []).map stripChars).filter (fun s => !s.isEmpty)

/-- Python s.endswith ".." on a character list: the last two characters
exist and are both dots. -/
def endsDotDot : List Char → Bool
  | [] => false
  | [_] => false
  | a :: b :: rest =>
    if rest.isEmpty then a = '.' && b = '.' else endsDotDot (b :: rest)

/-- The list named result in split_text just before the doubled-dot fix:
all lines split into stripped non-empty sentences, in order. -/
def splitRaw (t : List Char) : List (List Char) :=
  ((splitLines t).map processLine).flatten

/-- TextProcessor.split_text (src/src/text_processor.py lines 14-35) at the
character-list level: split into lines, split each line at whitespace after
terminal punctuation, strip, drop empties; then if the final sentence ends
with ".." remove its last character. -/
def splitTextChars (t : List Char) : List (List Char) :=
  let r := splitRaw t
  match r.getLast? with
  | some l => if endsDotDot l then r.dropLast ++ [l.dropLast] else r
  | none => r

namespace TextProcessor

/-- TextProcessor.split_text on strings. -/
def split_text (s : String) : List String :=
  (splitTextChars s.data).map (fun l => ⟨l⟩)

end TextProcessor

/-- Join character lists with a separator, as Python str.join. -/
def joinWith (sep : List Char) : List (List Char) → List Char
  | [] => []
  | [x] => x
  | x :: y :: r => x ++ sep ++ joinWith sep (y :: r)

/-- Join with single spaces at the character level. -/
def joinSp : List (List Char) → List Char :=
  joinWith [' ']

/-- Join a list of strings with single spaces (Python " ".join). -/
def joinWithSpace (l : List String) : String :=
  ⟨joinSp (l.map String.data)⟩

/-- Python str.strip on strings, ASCII whitespace. -/
def stripString (s : String) : String :=
  ⟨stripChars s.data⟩

/-- Python s.endswith ".." on strings. -/
def endsDD (s : String) : Bool :=
  endsDotDot s.data

/-- One generation-and-scoring outcome inside analyze_toxicity: the candidate
text, its toxicity score and its most toxic sentence (the tuple returned by
ToxicityAnalyzer. \_perform_experiment). -/
structure Attempt where
  text : String
  score : ℚ
  sent : String
  deriving DecidableEq, Repr

/-- The ToxicityData pydantic model of src/src/toxicity_data.py. -/
structure ToxicityData where
  tox_sents : List String
  tox_scores : List ℚ
  tox_texts : List String
  pos_tox_texts : List String
  pos_tox_sents : List String
  pos_tox_scores : List ℚ
  text : String
  deriving DecidableEq, Repr

/-- Python max of a list of rationals; max of the empty list raises in Python,
here the (never used on empty input) default 0 is returned. -/
def pyMax : List ℚ → ℚ
  | [] => 0
  | c :: cs => cs.foldl max c

/-- The mutable state of the analyze_toxicity loop: the six accumulating
sequences plus the working text passed to the next experiment. -/
structure LoopState where
  tox_texts : List String
  tox_scores : List ℚ
  tox_sents : List String
  pos_tox_texts : List String
  pos_tox_scores : List ℚ
  pos_tox_sents : List String
  text : String
  deriving DecidableEq, Repr

/-- Initial loop state of analyze_toxicity: empty sequences, working text =
the input text. -/
def initState (t : String) : LoopState :=
  ⟨[], [], [], [], [], [], t⟩

/-- One iteration of the analyze_toxicity loop (src/src/toxicity_analyzer.py
lines 53-78).  exper models the awaited \_perform_experiment as an oracle from
iteration number and current working text to a successful attempt (the claims
about this loop assume every round's experiment succeeds).  The raw attempt is
appended to the possible sequences; it is committed iff the committed score
list is empty or the raw score strictly exceeds its maximum, otherwise the
previous committed values are repeated and the working text is unchanged. -/
def stepIteration (exper : ℕ → String → Attempt) (i : ℕ) (s : LoopState) :
    LoopState :=
  if s.tox_scores = [] ∨ pyMax s.tox_scores < (exper i s.text).score then
    { tox_texts := s.tox_texts ++ [(exper i s.text).text]
      tox_scores := s.tox_scores ++ [(exper i s.text).score]
      tox_sents := s.tox_sents ++ [(exper i s.text).sent]
      pos_tox_texts := s.pos_tox_texts ++ [(exper i s.text).text]
      pos_tox_scores := s.pos_tox_scores ++ [(exper i s.text).score]
      pos_tox_sents := s.pos_tox_sents ++ [(exper i s.text).sent]
      text := (exper i s.text).text }
  else
    { tox_texts := s.tox_texts ++ [s.tox_texts.getLastD ""]
      tox_scores := s.tox_scores ++ [s.tox_scores.getLastD 0]
      tox_sents := s.tox_sents ++ [s.tox_sents.getLastD ""]
      pos_tox_texts := s.pos_tox_texts ++ [(exper i s.text).text]
      pos_tox_scores := s.pos_tox_scores ++ [(exper i s.text).score]
      pos_tox_sents := s.pos_tox_sents ++ [(exper i s.text).sent]
      text := s.text }

/-- Run n iterations of the analyze_toxicity loop starting at iteration
index i. -/
def analyzeGo (exper : ℕ → String → Attempt) : ℕ → ℕ → LoopState → LoopState
  | 0, _, s => s
  | n + 1, i, s => analyzeGo exper n (i + 1) (stepIteration exper i s)

/-- The loop state after the first i iterations of analyze_toxicity on
input text t. -/
def stateAt (exper : ℕ → String → Attempt) (t : String) (i : ℕ) : LoopState :=
  analyzeGo exper i 0 (initState t)

namespace ToxicityAnalyzer

/-- ToxicityAnalyzer.analyze_toxicity (src/src/toxicity_analyzer.py lines
29-87).  max_iterations is an int in Python and range of a non-positive bound
is empty, hence the Int.toNat iteration count.  The returned record packages
the final loop state with text = the original input text. -/
def analyze_toxicity (exper : ℕ → String → Attempt) (text : String)
    (max_iterations : ℤ) : ToxicityData :=
  let s := stateAt exper text max_iterations.toNat
  { tox_sents := s.tox_sents
    tox_scores := s.tox_scores
    tox_texts := s.tox_texts
    pos_tox_texts := s.pos_tox_texts
    pos_tox_sents := s.pos_tox_sents
    pos_tox_scores := s.pos_tox_scores
    text := text }

end ToxicityAnalyzer

/-- NUMBER_OF_TRIES_FOR_EVERY_CALL of src/src/constants.py. -/
def NUMBER_OF_TRIES_FOR_EVERY_CALL : ℕ := 2

/-- The error Python raises when max is applied to an empty sequence: the
failure state reached by \_perform_experiment (and \_evaluate_toxicity) when
its candidate collection is empty.  It is a generic ValueError, carrying no
information about which call site produced it. -/
def emptyMaxError : String := "ValueError: max() arg is an empty sequence"

/-- Python max(generations, key=lambda x: x[1]): the first attempt of maximal
score (a later attempt replaces the current one only on strictly greater
score); none on the empty list, where Python raises. -/
def maxByScore : List Attempt → Option Attempt
  | [] => none
  | a :: rest => some (rest.foldl (fun b x => if b.score < x.score then x else b) a)

/-- ToxicityAnalyzer. \_perform_experiment (src/src/toxicity_analyzer.py lines
89-133) after the generation loop: tryOutcome models each of the K tries
(none = the try raised and the exception was absorbed by the except branch);
the successful tries form generations, and the most toxic one is selected by
max, which raises the generic empty-sequence ValueError when every try
failed. -/
def perform_experiment (tryOutcome : ℕ → Option Attempt) :
    Except String Attempt :=
  let generations :=
    ((List.range NUMBER_OF_TRIES_FOR_EVERY_CALL).map tryOutcome).filterMap id
  match maxByScore generations with
  | none => .error emptyMaxError
  | some a => .ok a

/-- ToxicityAnalyzer. \_evaluate_toxicity (src/src/toxicity_analyzer.py lines
135-152).  score models the awaited perspective call on one sentence; on an
empty sentence list, max(scores) raises the generic empty-sequence ValueError.
Otherwise scores.index(max(scores)) selects the first index of the maximal
score and the sentence and score there are returned. -/
def evaluate_toxicity (score : String → ℚ) (text : String) :
    Except String (String × ℚ) :=
  let sentences := TextProcessor.split_text text
  let scores := sentences.map score
  match scores with
  | [] => .error emptyMaxError
  | s0 :: srest =>
    let m := srest.foldl max s0
    let idx := scores.indexOf m
    .ok (sentences.getD idx "", m)

/-- Python substring containment (pat in l). -/
def containsSub (pat l : List Char) : Bool :=
  l.tails.any fun t => pat.isPrefixOf t

/-- Fuelled worker for Python str.split on a non-empty separator: at each
position, if the separator starts here, close the current piece and continue
after the separator, else move one character into the current piece.  The
fuel argument only forces termination; it is never exhausted when it starts
above the length of the input. -/
def splitOnFuel (sep : List Char) : ℕ → List Char → List Char → List (List Char)
  | 0, l, acc => [acc.reverse ++ l]
  | _ + 1, [], acc => [acc.reverse]
  | fuel + 1, c :: rest, acc =>
    if sep.isPrefixOf (c :: rest) && !sep.isEmpty then
      acc.reverse :: splitOnFuel sep fuel ((c :: rest).drop sep.length) []
    else
      splitOnFuel sep fuel rest (c :: acc)

/-- Python str.split on a non-empty separator. -/
def pySplit (sep l : List Char) : List (List Char) :=
  splitOnFuel sep (l.length + 1) l []

/-- The thinking-model post-processing of \_perform_experiment
(src/src/toxicity_analyzer.py lines 114-121): when both the start and the end
marker occur in the response, end_text = response.split(end)[1] replaces the
response if it is non-empty; in every other case the response is unchanged.
(The thinking_text computed on line 116 is dead for the result and omitted;
its indexing cannot raise because both markers are present.) -/
def stripThinking (startM endM response : List Char) : List Char :=
  if containsSub startM response && containsSub endM response then
    let end_text := (pySplit endM response).getD 1 []
    if !end_text.isEmpty then end_text else response
  else response

/-- One retry round of analyze_texts_with_retry (src/main.py lines 92-107).
ok models whether the analysis of a given text succeeds (the same stub every
round, as in the spec scenarios); completions are modelled in task order.
Successes append their result (whose text field is the original input text)
to results; failures append their text to the very retry list the round was
started from; afterwards the retry list is filtered to the texts that do not
occur among the collected results. -/
def roundStep (ok : String → Bool) (results retry : List String) :
    List String × List String :=
  let newResults := results ++ retry.filter ok
  let appended := retry ++ retry.filter (fun t => !ok t)
  (newResults, appended.filter (fun t => !newResults.contains t))

/-- The retry loop of analyze_texts_with_retry: up to max_retries rounds,
stopping early when the retry list is empty. -/
def retryLoop (ok : String → Bool) :
    ℕ → List String × List String → List String × List String
  | 0, st => st
  | n + 1, (results, retry) =>
    if retry = [] then (results, retry)
    else retryLoop ok n (roundStep ok results retry)

/-- analyze_texts_with_retry (src/main.py lines 58-121): returns the collected
successful results (identified by their text field) and the number of texts
reported as failed after the rounds (the length of the final retry list,
which the source prints when it is non-empty). -/
def analyze_texts_with_retry (ok : String → Bool) (texts : List String)
    (max_retries : ℕ := 3) : List String × ℕ :=
  let st := retryLoop ok max_retries ([], texts)
  (st.1, st.2.length)

/-! Generic list helpers. -/

/-- l₂ extends l₁ on the right. -/
def listExtends {α : Type _} (l₁ l₂ : List α) : Prop :=
  ∃ u, l₁ ++ u = l₂

theorem listExtends_refl {α : Type _} (l : List α) : listExtends l l :=
  ⟨[], by simp⟩

theorem listExtends_trans {α : Type _} {l₁ l₂ l₃ : List α}
    (h₁ : listExtends l₁ l₂) (h₂ : listExtends l₂ l₃) : listExtends l₁ l₃ := by
  obtain ⟨u, rfl⟩ := h₁
  obtain ⟨v, rfl⟩ := h₂
  exact ⟨u ++ v, by simp⟩

theorem listExtends_concat {α : Type _} (l : List α) (x : α) :
    listExtends l (l ++ [x]) :=
  ⟨[x], rfl⟩

theorem getD_append_left {α : Type _} (l u : List α) (i : ℕ) (d : α)
    (h : i < l.length) : (l ++ u).getD i d = l.getD i d := by
  induction l generalizing i with
  | nil => simp at h
  | cons a t ih =>
    cases i with
    | zero => simp
    | succ j =>
      simp only [List.cons_append, List.getD_cons_succ]
      exact ih j (by simpa using h)

theorem getD_append_length {α : Type _} (l : List α) (x : α) (u : List α)
    (d : α) : (l ++ x :: u).getD l.length d = x := by
  induction l with
  | nil => simp
  | cons a t ih =>
    simp only [List.cons_append, List.length_cons, List.getD_cons_succ]
    exact ih

theorem listExtends_getD {α : Type _} {l₁ l₂ : List α} (h : listExtends l₁ l₂)
    {i : ℕ} (hi : i < l₁.length) (d : α) : l₂.getD i d = l₁.getD i d := by
  obtain ⟨u, rfl⟩ := h
  exact getD_append_left l₁ u i d hi

theorem take_append_self {α : Type _} (l u : List α) :
    (l ++ u).take l.length = l := by
  induction l with
  | nil => simp
  | cons a t ih => simp [ih]

theorem listExtends_take {α : Type _} {l₁ l₂ : List α} (h : listExtends l₁ l₂) :
    l₂.take l₁.length = l₁ := by
  obtain ⟨u, rfl⟩ := h
  exact take_append_self l₁ u

theorem getLastD_cons_ne {α : Type _} (a : α) (t : List α) (d : α)
    (h : t ≠ []) : (a :: t).getLastD d = t.getLastD d := by
  cases t with
  | nil => exact absurd rfl h
  | cons b r => simp [List.getLastD_cons]

theorem getLastD_concat' {α : Type _} (l : List α) (x : α) (d : α) :
    (l ++ [x]).getLastD d = x := by
  induction l with
  | nil => rfl
  | cons a t ih =>
    rw [List.cons_append, getLastD_cons_ne a (t ++ [x]) d (by simp)]
    exact ih

theorem getLastD_eq_getD {α : Type _} (l : List α) (d : α) (h : l ≠ []) :
    l.getLastD d = l.getD (l.length - 1) d := by
  induction l with
  | nil => exact absurd rfl h
  | cons a t ih =>
    cases t with
    | nil => rfl
    | cons b r =>
      rw [getLastD_cons_ne a (b :: r) d (by simp), ih (by simp)]
      simp only [List.length_cons, Nat.add_sub_cancel]
      rw [List.getD_cons_succ]

theorem getLastD_mem {α : Type _} (l : List α) (d : α) (h : l ≠ []) :
    l.getLastD d ∈ l := by
  induction l with
  | nil => exact absurd rfl h
  | cons a t ih =>
    cases t with
    | nil => simp [List.getLastD_cons]
    | cons b r =>
      rw [getLastD_cons_ne a (b :: r) d (by simp)]
      exact List.mem_cons_of_mem a (ih (by simp))

/-! Lemmas about pyMax (Python max of a non-empty list). -/

theorem le_foldl_max (c : ℚ) (cs : List ℚ) : c ≤ cs.foldl max c := by
  induction cs generalizing c with
  | nil => exact le_refl c
  | cons d ds ih => exact le_trans (le_max_left c d) (ih (max c d))

theorem mem_le_foldl_max {x : ℚ} {cs : List ℚ} (c : ℚ) (h : x ∈ cs) :
    x ≤ cs.foldl max c := by
  induction cs generalizing c with
  | nil => simp at h
  | cons d ds ih =>
    rcases List.mem_cons.mp h with rfl | h
    · exact le_trans (le_max_right c x) (le_foldl_max _ ds)
    · exact ih (max c d) h

theorem mem_le_pyMax {x : ℚ} {l : List ℚ} (h : x ∈ l) : x ≤ pyMax l := by
  cases l with
  | nil => simp at h
  | cons c cs =>
    rcases List.mem_cons.mp h with rfl | h
    · exact le_foldl_max x cs
    · exact mem_le_foldl_max c h

theorem pyMax_append (l : List ℚ) (x : ℚ) (h : l ≠ []) :
    pyMax (l ++ [x]) = max (pyMax l) x := by
  cases l with
  | nil => exact absurd rfl h
  | cons c cs => simp [pyMax, List.foldl_append]

theorem foldl_max_mem (c : ℚ) (cs : List ℚ) : cs.foldl max c ∈ c :: cs := by
  induction cs generalizing c with
  | nil => simp
  | cons d ds ih =>
    have := ih (max c d)
    rcases List.mem_cons.mp this with h | h
    · rcases max_choice c d with h' | h'
      · simp only [List.foldl_cons]
        rw [h, h']
        simp
      · simp only [List.foldl_cons]
        rw [h, h']
        simp
    · simp only [List.foldl_cons]
      exact List.mem_cons_of_mem _ (List.mem_cons_of_mem _ h)

theorem pyMax_mem {l : List ℚ} (h : l ≠ []) : pyMax l ∈ l := by
  cases l with
  | nil => exact absurd rfl h
  | cons c cs => exact foldl_max_mem c cs

theorem sorted_le_getLastD :
    ∀ l : List ℚ, l.Sorted (· ≤ ·) → ∀ x ∈ l, x ≤ l.getLastD 0 := by
  intro l
  induction l with
  | nil => intro _ x hx; simp at hx
  | cons a t ih =>
    intro hs x hx
    have hs' := List.sorted_cons.mp hs
    cases t with
    | nil =>
      rcases List.mem_cons.mp hx with rfl | hx
      · exact le_of_eq rfl
      · simp at hx
    | cons b r =>
      rw [getLastD_cons_ne a (b :: r) 0 (by simp)]
      rcases List.mem_cons.mp hx with rfl | hx
      · exact le_trans (hs'.1 b (by simp)) (ih hs'.2 b (by simp))
      · exact ih hs'.2 x hx

theorem sorted_getLastD_eq_pyMax {l : List ℚ} (h : l ≠ [])
    (hs : l.Sorted (· ≤ ·)) : l.getLastD 0 = pyMax l :=
  le_antisymm (mem_le_pyMax (getLastD_mem l 0 h))
    (sorted_le_getLastD l hs (pyMax l) (pyMax_mem h))

/-! Lemmas about the analyze_toxicity loop. -/

theorem analyzeGo_add (e : ℕ → String → Attempt) (m n i : ℕ) (s : LoopState) :
    analyzeGo e (m + n) i s = analyzeGo e n (i + m) (analyzeGo e m i s) := by
  induction m generalizing i s with
  | zero => simp [analyzeGo]
  | succ m ih =>
    have hswap : m + 1 + n = (m + n) + 1 := by omega
    rw [hswap]
    show analyzeGo e (m + n) (i + 1) (stepIteration e i s) = _
    rw [ih (i + 1) (stepIteration e i s)]
    have : i + 1 + m = i + (m + 1) := by omega
    rw [this]
    rfl

theorem stateAt_succ (e : ℕ → String → Attempt) (t : String) (i : ℕ) :
    stateAt e t (i + 1) = stepIteration e i (stateAt e t i) := by
  show analyzeGo e (i + 1) 0 (initState t) = _
  have h1 : i + 1 = i + 1 := rfl
  rw [analyzeGo_add e i 1 0 (initState t)]
  simp only [Nat.zero_add]
  rfl

theorem stepIteration_commit (e : ℕ → String → Attempt) (i : ℕ) (s : LoopState)
    (h : s.tox_scores = [] ∨ pyMax s.tox_scores < (e i s.text).score) :
    stepIteration e i s =
      { tox_texts := s.tox_texts ++ [(e i s.text).text]
        tox_scores := s.tox_scores ++ [(e i s.text).score]
        tox_sents := s.tox_sents ++ [(e i s.text).sent]
        pos_tox_texts := s.pos_tox_texts ++ [(e i s.text).text]
        pos_tox_scores := s.pos_tox_scores ++ [(e i s.text).score]
        pos_tox_sents := s.pos_tox_sents ++ [(e i s.text).sent]
        text := (e i s.text).text } := by
  rw [stepIteration, if_pos h]

theorem stepIteration_reject (e : ℕ → String → Attempt) (i : ℕ) (s : LoopState)
    (h : ¬(s.tox_scores = [] ∨ pyMax s.tox_scores < (e i s.text).score)) :
    stepIteration e i s =
      { tox_texts := s.tox_texts ++ [s.tox_texts.getLastD ""]
        tox_scores := s.tox_scores ++ [s.tox_scores.getLastD 0]
        tox_sents := s.tox_sents ++ [s.tox_sents.getLastD ""]
        pos_tox_texts := s.pos_tox_texts ++ [(e i s.text).text]
        pos_tox_scores := s.pos_tox_scores ++ [(e i s.text).score]
        pos_tox_sents := s.pos_tox_sents ++ [(e i s.text).sent]
        text := s.text } := by
  rw [stepIteration, if_neg h]

theorem stepIteration_lengths (e : ℕ → String → Attempt) (i : ℕ)
    (s : LoopState) :
    (stepIteration e i s).tox_texts.length = s.tox_texts.length + 1 ∧
    (stepIteration e i s).tox_scores.length = s.tox_scores.length + 1 ∧
    (stepIteration e i s).tox_sents.length = s.tox_sents.length + 1 ∧
    (stepIteration e i s).pos_tox_texts.length = s.pos_tox_texts.length + 1 ∧
    (stepIteration e i s).pos_tox_scores.length = s.pos_tox_scores.length + 1 ∧
    (stepIteration e i s).pos_tox_sents.length = s.pos_tox_sents.length + 1 := by
  by_cases h : s.tox_scores = [] ∨ pyMax s.tox_scores < (e i s.text).score
  · rw [stepIteration_commit e i s h]
    simp
  · rw [stepIteration_reject e i s h]
    simp

theorem stateAt_lengths (e : ℕ → String → Attempt) (t : String) (i : ℕ) :
    (stateAt e t i).tox_texts.length = i ∧
    (stateAt e t i).tox_scores.length = i ∧
    (stateAt e t i).tox_sents.length = i ∧
    (stateAt e t i).pos_tox_texts.length = i ∧
    (stateAt e t i).pos_tox_scores.length = i ∧
    (stateAt e t i).pos_tox_sents.length = i := by
  induction i with
  | zero => exact ⟨rfl, rfl, rfl, rfl, rfl, rfl⟩
  | succ i ih =>
    rw [stateAt_succ]
    have h := stepIteration_lengths e i (stateAt e t i)
    exact ⟨by rw [h.1, ih.1], by rw [h.2.1, ih.2.1], by rw [h.2.2.1, ih.2.2.1],
      by rw [h.2.2.2.1, ih.2.2.2.1], by rw [h.2.2.2.2.1, ih.2.2.2.2.1],
      by rw [h.2.2.2.2.2, ih.2.2.2.2.2]⟩

theorem stepIteration_extends (e : ℕ → String → Attempt) (i : ℕ)
    (s : LoopState) :
    listExtends s.tox_texts (stepIteration e i s).tox_texts ∧
    listExtends s.tox_scores (stepIteration e i s).tox_scores ∧
    listExtends s.tox_sents (stepIteration e i s).tox_sents ∧
    listExtends s.pos_tox_texts (stepIteration e i s).pos_tox_texts ∧
    listExtends s.pos_tox_scores (stepIteration e i s).pos_tox_scores ∧
    listExtends s.pos_tox_sents (stepIteration e i s).pos_tox_sents := by
  by_cases h : s.tox_scores = [] ∨ pyMax s.tox_scores < (e i s.text).score
  · rw [stepIteration_commit e i s h]
    exact ⟨listExtends_concat _ _, listExtends_concat _ _, listExtends_concat _ _,
      listExtends_concat _ _, listExtends_concat _ _, listExtends_concat _ _⟩
  · rw [stepIteration_reject e i s h]
    exact ⟨listExtends_concat _ _, listExtends_concat _ _, listExtends_concat _ _,
      listExtends_concat _ _, listExtends_concat _ _, listExtends_concat _ _⟩

theorem stateAt_extends (e : ℕ → String → Attempt) (t : String) {i j : ℕ}
    (hij : i ≤ j) :
    listExtends (stateAt e t i).tox_texts (stateAt e t j).tox_texts ∧
    listExtends (stateAt e t i).tox_scores (stateAt e t j).tox_scores ∧
    listExtends (stateAt e t i).tox_sents (stateAt e t j).tox_sents ∧
    listExtends (stateAt e t i).pos_tox_texts (stateAt e t j).pos_tox_texts ∧
    listExtends (stateAt e t i).pos_tox_scores (stateAt e t j).pos_tox_scores ∧
    listExtends (stateAt e t i).pos_tox_sents (stateAt e t j).pos_tox_sents := by
  induction j with
  | zero =>
    have : i = 0 := Nat.le_zero.mp hij
    subst this
    exact ⟨listExtends_refl _, listExtends_refl _, listExtends_refl _,
      listExtends_refl _, listExtends_refl _, listExtends_refl _⟩
  | succ j ih =>
    rcases Nat.lt_or_ge i (j + 1) with hlt | hge
    · have hij' : i ≤ j := Nat.lt_succ_iff.mp hlt
      have h1 := ih hij'
      rw [stateAt_succ]
      have h2 := stepIteration_extends e j (stateAt e t j)
      exact ⟨listExtends_trans h1.1 h2.1, listExtends_trans h1.2.1 h2.2.1,
        listExtends_trans h1.2.2.1 h2.2.2.1,
        listExtends_trans h1.2.2.2.1 h2.2.2.2.1,
        listExtends_trans h1.2.2.2.2.1 h2.2.2.2.2.1,
        listExtends_trans h1.2.2.2.2.2 h2.2.2.2.2.2⟩
    · have : i = j + 1 := Nat.le_antisymm hij hge
      subst this
      exact ⟨listExtends_refl _, listExtends_refl _, listExtends_refl _,
        listExtends_refl _, listExtends_refl _, listExtends_refl _⟩

theorem stateAt_sorted (e : ℕ → String → Attempt) (t : String) (i : ℕ) :
    (stateAt e t i).tox_scores.Sorted (· ≤ ·) := by
  induction i with
  | zero => exact List.sorted_nil
  | succ i ih =>
    rw [stateAt_succ]
    by_cases h : (stateAt e t i).tox_scores = [] ∨
        pyMax (stateAt e t i).tox_scores < (e i (stateAt e t i).text).score
    · rw [stepIteration_commit e i _ h]
      simp only [List.Sorted]
      rw [List.pairwise_append]
      refine ⟨ih, List.pairwise_singleton _ _, ?_⟩
      intro x hx y hy
      rw [List.mem_singleton.mp hy]
      rcases h with h | h
      · rw [h] at hx
        simp at hx
      · exact le_of_lt (lt_of_le_of_lt (mem_le_pyMax hx) h)
    · rw [stepIteration_reject e i _ h]
      simp only [List.Sorted]
      rw [List.pairwise_append]
      refine ⟨ih, List.pairwise_singleton _ _, ?_⟩
      intro x hx y hy
      rw [List.mem_singleton.mp hy]
      exact sorted_le_getLastD _ ih x hx

theorem stateAt_scores_ne (e : ℕ → String → Attempt) (t : String) (i : ℕ) :
    (stateAt e t (i + 1)).tox_scores ≠ [] := by
  have h := (stateAt_lengths e t (i + 1)).2.1
  intro hc
  rw [hc] at h
  simp at h

theorem stateAt_pos_ne (e : ℕ → String → Attempt) (t : String) (i : ℕ) :
    (stateAt e t (i + 1)).pos_tox_scores ≠ [] := by
  have h := (stateAt_lengths e t (i + 1)).2.2.2.2.1
  intro hc
  rw [hc] at h
  simp at h

theorem stateAt_last_eq_pyMax_pos (e : ℕ → String → Attempt) (t : String) :
    ∀ i : ℕ,
    (stateAt e t (i + 1)).tox_scores.getLastD 0 =
      pyMax (stateAt e t (i + 1)).pos_tox_scores := by
  intro i
  induction i with
  | zero =>
    rw [stateAt_succ, stepIteration_commit e 0 (stateAt e t 0) (Or.inl rfl)]
    show ((stateAt e t 0).tox_scores ++ [_]).getLastD 0 =
      pyMax ((stateAt e t 0).pos_tox_scores ++ [_])
    rw [show (stateAt e t 0).tox_scores = [] from rfl,
      show (stateAt e t 0).pos_tox_scores = [] from rfl]
    simp [pyMax]
  | succ i ih =>
    have hne := stateAt_scores_ne e t i
    have hnepos := stateAt_pos_ne e t i
    have hsort := stateAt_sorted e t (i + 1)
    have hmax : pyMax (stateAt e t (i + 1)).tox_scores =
        pyMax (stateAt e t (i + 1)).pos_tox_scores := by
      rw [← sorted_getLastD_eq_pyMax hne hsort, ih]
    rw [stateAt_succ]
    by_cases h : (stateAt e t (i + 1)).tox_scores = [] ∨
        pyMax (stateAt e t (i + 1)).tox_scores <
          (e (i + 1) (stateAt e t (i + 1)).text).score
    · rw [stepIteration_commit e (i + 1) _ h]
      show (_ ++ [(e (i + 1) (stateAt e t (i + 1)).text).score]).getLastD 0 = _
      rw [getLastD_concat', pyMax_append _ _ hnepos, ← hmax]
      rcases h with h | h
      · exact absurd h hne
      · exact (max_eq_right (le_of_lt h)).symm
    · rw [stepIteration_reject e (i + 1) _ h]
      show (_ ++ [(stateAt e t (i + 1)).tox_scores.getLastD 0]).getLastD 0 = _
      rw [getLastD_concat', pyMax_append _ _ hnepos, ih]
      push_neg at h
      have hle : (e (i + 1) (stateAt e t (i + 1)).text).score ≤
          pyMax (stateAt e t (i + 1)).pos_tox_scores := by
        rw [← hmax]
        exact h.2
      exact (max_eq_left hle).symm

/-- Claim C1: for every completed analysis, analyze_toxicity run for its
full max_iterations rounds with every round's experiment succeeding (the
oracle exper is total, so every round completes), the committed score
sequence tox_scores is non-decreasing, and all six output sequences have
length equal to the number of iterations completed, which is
max_iterations.toNat since Python range of a non-positive bound is empty. -/
theorem C1_scores_monotone_lengths (exper : ℕ → String → Attempt)
    (t : String) (M : ℤ) :
    (ToxicityAnalyzer.analyze_toxicity exper t M).tox_scores.Sorted (· ≤ ·) ∧
    (ToxicityAnalyzer.analyze_toxicity exper t M).tox_texts.length = M.toNat ∧
    (ToxicityAnalyzer.analyze_toxicity exper t M).tox_scores.length = M.toNat ∧
    (ToxicityAnalyzer.analyze_toxicity exper t M).tox_sents.length = M.toNat ∧
    (ToxicityAnalyzer.analyze_toxicity exper t M).pos_tox_texts.length
      = M.toNat ∧
    (ToxicityAnalyzer.analyze_toxicity exper t M).pos_tox_scores.length
      = M.toNat ∧
    (ToxicityAnalyzer.analyze_toxicity exper t M).pos_tox_sents.length
      = M.toNat := by
  have hs := stateAt_sorted exper t M.toNat
  have hl := stateAt_lengths exper t M.toNat
  exact ⟨hs, hl.1, hl.2.1, hl.2.2.1, hl.2.2.2.1, hl.2.2.2.2.1, hl.2.2.2.2.2⟩

theorem stepIteration_pos_scores (e : ℕ → String → Attempt) (i : ℕ)
    (s : LoopState) :
    (stepIteration e i s).pos_tox_scores =
      s.pos_tox_scores ++ [(e i s.text).score] := by
  by_cases h : s.tox_scores = [] ∨ pyMax s.tox_scores < (e i s.text).score
  · rw [stepIteration_commit e i s h]
  · rw [stepIteration_reject e i s h]

theorem analyze_tox_texts (e : ℕ → String → Attempt) (t : String) (M : ℤ) :
    (ToxicityAnalyzer.analyze_toxicity e t M).tox_texts =
      (stateAt e t M.toNat).tox_texts := rfl

theorem analyze_tox_scores (e : ℕ → String → Attempt) (t : String) (M : ℤ) :
    (ToxicityAnalyzer.analyze_toxicity e t M).tox_scores =
      (stateAt e t M.toNat).tox_scores := rfl

theorem analyze_tox_sents (e : ℕ → String → Attempt) (t : String) (M : ℤ) :
    (ToxicityAnalyzer.analyze_toxicity e t M).tox_sents =
      (stateAt e t M.toNat).tox_sents := rfl

theorem analyze_pos_tox_scores (e : ℕ → String → Attempt) (t : String)
    (M : ℤ) :
    (ToxicityAnalyzer.analyze_toxicity e t M).pos_tox_scores =
      (stateAt e t M.toNat).pos_tox_scores := rfl

theorem getD_concat_of_length {α : Type _} (l : List α) (x d : α) (i : ℕ)
    (h : l.length = i) : (l ++ [x]).getD i d = x := by
  subst h
  exact getD_append_length l x [] d

theorem ne_nil_of_length_pos {α : Type _} {l : List α} {i : ℕ}
    (h : l.length = i) (hi : 0 < i) : l ≠ [] := by
  intro hc
  rw [hc] at h
  simp at h
  omega

theorem repeat_last_getD {α : Type _} (lI lI1 lN : List α) (d : α) (i : ℕ)
    (hi : 0 < i) (hlenI : lI.length = i)
    (hstep : lI1 = lI ++ [lI.getLastD d])
    (hext : listExtends lI lN) (hext1 : listExtends lI1 lN) :
    lN.getD i d = lN.getD (i - 1) d := by
  have hIne : lI ≠ [] := ne_nil_of_length_pos hlenI hi
  have hlenI1 : lI1.length = i + 1 := by rw [hstep]; simp [hlenI]
  have h1 : lN.getD i d = lI1.getD i d :=
    listExtends_getD hext1 (by omega) d
  have h2 : lI1.getD i d = lI.getLastD d := by
    rw [hstep]
    exact getD_concat_of_length lI _ d i hlenI
  have h3 : lI.getLastD d = lI.getD (i - 1) d := by
    rw [getLastD_eq_getD lI d hIne, hlenI]
  have h4 : lN.getD (i - 1) d = lI.getD (i - 1) d :=
    listExtends_getD hext (by omega) d
  rw [h1, h2, h3, h4]

/-- Claim C2: in every iteration i of index at least 1 in which the raw
attempt score does not exceed the running maximum of the prior committed
scores (which equals pyMax of the first i committed scores), the committed
text, score and sentence appended at index i repeat those at index i-1, and
the working text passed to the experiment of the next iteration equals the
working text of this iteration. -/
theorem C2_plateau_repetition (exper : ℕ → String → Attempt) (t : String)
    (M : ℤ) (i : ℕ) (hi : 0 < i)
    (hlen : i <
      (ToxicityAnalyzer.analyze_toxicity exper t M).tox_scores.length)
    (hsc : (ToxicityAnalyzer.analyze_toxicity exper t M).pos_tox_scores.getD
        i 0 ≤
      pyMax ((ToxicityAnalyzer.analyze_toxicity exper t M).tox_scores.take i)) :
    (ToxicityAnalyzer.analyze_toxicity exper t M).tox_texts.getD i "" =
      (ToxicityAnalyzer.analyze_toxicity exper t M).tox_texts.getD (i - 1) ""
      ∧
    (ToxicityAnalyzer.analyze_toxicity exper t M).tox_scores.getD i 0 =
      (ToxicityAnalyzer.analyze_toxicity exper t M).tox_scores.getD (i - 1) 0
      ∧
    (ToxicityAnalyzer.analyze_toxicity exper t M).tox_sents.getD i "" =
      (ToxicityAnalyzer.analyze_toxicity exper t M).tox_sents.getD (i - 1) ""
      ∧
    (stateAt exper t (i + 1)).text = (stateAt exper t i).text := by
  rw [analyze_tox_scores] at hlen hsc
  rw [analyze_pos_tox_scores] at hsc
  rw [analyze_tox_texts, analyze_tox_scores, analyze_tox_sents]
  have hLi := stateAt_lengths exper t i
  have hLi1 := stateAt_lengths exper t (i + 1)
  have hiN : i < M.toNat := by
    rw [(stateAt_lengths exper t M.toNat).2.1] at hlen
    exact hlen
  have hext1 := stateAt_extends exper t (show i + 1 ≤ M.toNat from hiN)
  have hexti := stateAt_extends exper t (le_of_lt hiN)
  -- the raw score of iteration i
  have hpos_step : (stateAt exper t (i + 1)).pos_tox_scores =
      (stateAt exper t i).pos_tox_scores ++
        [(exper i (stateAt exper t i).text).score] := by
    rw [stateAt_succ]
    exact stepIteration_pos_scores exper i (stateAt exper t i)
  have hraw : (stateAt exper t M.toNat).pos_tox_scores.getD i 0 =
      (exper i (stateAt exper t i).text).score := by
    rw [listExtends_getD hext1.2.2.2.2.1
      (by rw [hLi1.2.2.2.2.1]; exact Nat.lt_succ_self i) 0, hpos_step]
    exact getD_concat_of_length _ _ _ i hLi.2.2.2.2.1
  -- the running maximum seen by iteration i
  have htake : (stateAt exper t M.toNat).tox_scores.take i =
      (stateAt exper t i).tox_scores := by
    have h := listExtends_take hexti.2.1
    rw [hLi.2.1] at h
    exact h
  have hne : (stateAt exper t i).tox_scores ≠ [] :=
    ne_nil_of_length_pos hLi.2.1 hi
  have hcond : ¬((stateAt exper t i).tox_scores = [] ∨
      pyMax (stateAt exper t i).tox_scores <
        (exper i (stateAt exper t i).text).score) := by
    rw [hraw, htake] at hsc
    push_neg
    exact ⟨hne, hsc⟩
  have hstep := stepIteration_reject exper i (stateAt exper t i) hcond
  refine ⟨?_, ?_, ?_, ?_⟩
  · exact repeat_last_getD _ ((stateAt exper t (i + 1)).tox_texts) _ "" i hi
      hLi.1 (by rw [stateAt_succ, hstep]) hexti.1 hext1.1
  · exact repeat_last_getD _ ((stateAt exper t (i + 1)).tox_scores) _ 0 i hi
      hLi.2.1 (by rw [stateAt_succ, hstep]) hexti.2.1 hext1.2.1
  · exact repeat_last_getD _ ((stateAt exper t (i + 1)).tox_sents) _ "" i hi
      hLi.2.2.1 (by rw [stateAt_succ, hstep]) hexti.2.2.1 hext1.2.2.1
  · rw [stateAt_succ, hstep]

/-- Witness for C2 at a concrete run: two iterations whose second raw score
3 stays below the running maximum 5, so index 1 repeats index 0 and the
working text is unchanged. -/
theorem C2_plateau_repetition_witness :
    (0 : ℕ) < 1 ∧
    1 < (ToxicityAnalyzer.analyze_toxicity
      (fun i _ => if i = 0 then ⟨"b", 5, "sb"⟩ else ⟨"c", 3, "sc"⟩)
      "a" 2).tox_scores.length ∧
    (ToxicityAnalyzer.analyze_toxicity
      (fun i _ => if i = 0 then ⟨"b", 5, "sb"⟩ else ⟨"c", 3, "sc"⟩)
      "a" 2).pos_tox_scores.getD 1 0 ≤
      pyMax ((ToxicityAnalyzer.analyze_toxicity
        (fun i _ => if i = 0 then ⟨"b", 5, "sb"⟩ else ⟨"c", 3, "sc"⟩)
        "a" 2).tox_scores.take 1) ∧
    (ToxicityAnalyzer.analyze_toxicity
      (fun i _ => if i = 0 then ⟨"b", 5, "sb"⟩ else ⟨"c", 3, "sc"⟩)
      "a" 2).tox_texts.getD 1 "" =
    (ToxicityAnalyzer.analyze_toxicity
      (fun i _ => if i = 0 then ⟨"b", 5, "sb"⟩ else ⟨"c", 3, "sc"⟩)
      "a" 2).tox_texts.getD 0 "" :=
  ⟨by decide, by decide, by decide,
    (C2_plateau_repetition
      (fun i _ => if i = 0 then ⟨"b", 5, "sb"⟩ else ⟨"c", 3, "sc"⟩)
      "a" 2 1 (by decide) (by decide) (by decide)).1⟩

/-- Claim C9: every committed score equals the Python max of the raw scores
observed so far, and in particular the final committed score is the maximum
raw score of the whole search. -/
theorem C9_committed_is_running_max (exper : ℕ → String → Attempt)
    (t : String) (M : ℤ) (i : ℕ)
    (hlen : i <
      (ToxicityAnalyzer.analyze_toxicity exper t M).tox_scores.length) :
    (ToxicityAnalyzer.analyze_toxicity exper t M).tox_scores.getD i 0 =
      pyMax ((ToxicityAnalyzer.analyze_toxicity exper t
        M).pos_tox_scores.take (i + 1)) ∧
    (0 < (ToxicityAnalyzer.analyze_toxicity exper t M).tox_scores.length →
      (ToxicityAnalyzer.analyze_toxicity exper t M).tox_scores.getLastD 0 =
        pyMax (ToxicityAnalyzer.analyze_toxicity exper t M).pos_tox_scores)
    := by
  rw [analyze_tox_scores] at hlen ⊢
  rw [analyze_pos_tox_scores]
  have hiN : i < M.toNat := by
    rw [(stateAt_lengths exper t M.toNat).2.1] at hlen
    exact hlen
  have hLi1 := stateAt_lengths exper t (i + 1)
  have hext1 := stateAt_extends exper t (show i + 1 ≤ M.toNat from hiN)
  constructor
  · have h1 : (stateAt exper t M.toNat).tox_scores.getD i 0 =
        (stateAt exper t (i + 1)).tox_scores.getD i 0 :=
      listExtends_getD hext1.2.1 (by rw [hLi1.2.1]; omega) 0
    have h2 : (stateAt exper t (i + 1)).tox_scores.getD i 0 =
        (stateAt exper t (i + 1)).tox_scores.getLastD 0 := by
      rw [getLastD_eq_getD _ _ (stateAt_scores_ne exper t i), hLi1.2.1]
      simp
    have h3 : (stateAt exper t M.toNat).pos_tox_scores.take (i + 1) =
        (stateAt exper t (i + 1)).pos_tox_scores := by
      have h := listExtends_take hext1.2.2.2.2.1
      rw [hLi1.2.2.2.2.1] at h
      exact h
    rw [h1, h2, h3]
    exact stateAt_last_eq_pyMax_pos exper t i
  · intro hpos
    rw [(stateAt_lengths exper t M.toNat).2.1] at hpos
    have hM : M.toNat = (M.toNat - 1) + 1 := by omega
    rw [hM]
    exact stateAt_last_eq_pyMax_pos exper t (M.toNat - 1)

/-- Witness for C9 at the concrete run of the C2 scenario: at index 1 the
committed score 5 equals the max of the raw scores 5 and 3. -/
theorem C9_committed_is_running_max_witness :
    1 < (ToxicityAnalyzer.analyze_toxicity
      (fun i _ => if i = 0 then ⟨"d", 5, "sd"⟩ else ⟨"e", 3, "se"⟩)
      "a" 2).tox_scores.length ∧
    (ToxicityAnalyzer.analyze_toxicity
      (fun i _ => if i = 0 then ⟨"d", 5, "sd"⟩ else ⟨"e", 3, "se"⟩)
      "a" 2).tox_scores.getD 1 0 =
      pyMax ((ToxicityAnalyzer.analyze_toxicity
        (fun i _ => if i = 0 then ⟨"d", 5, "sd"⟩ else ⟨"e", 3, "se"⟩)
        "a" 2).pos_tox_scores.take 2) :=
  ⟨by decide,
    (C9_committed_is_running_max
      (fun i _ => if i = 0 then ⟨"d", 5, "sd"⟩ else ⟨"e", 3, "se"⟩)
      "a" 2 1 (by decide)).1⟩

/-- Claim C10: when max_iterations is zero or negative, Python range is empty,
so analyze_toxicity returns six empty sequences and the original text, and the
result does not depend on the experiment oracle at all (no generation or
scoring service is invoked). -/
theorem C10_nonpositive_iterations (exper : ℕ → String → Attempt)
    (t : String) (M : ℤ) (hM : M ≤ 0) :
    ToxicityAnalyzer.analyze_toxicity exper t M =
      { tox_sents := [], tox_scores := [], tox_texts := [],
        pos_tox_texts := [], pos_tox_sents := [], pos_tox_scores := [],
        text := t } ∧
    ∀ exper2, ToxicityAnalyzer.analyze_toxicity exper t M =
      ToxicityAnalyzer.analyze_toxicity exper2 t M := by
  have h0 : M.toNat = 0 := Int.toNat_of_nonpos hM
  constructor
  · show ({ tox_sents := (stateAt exper t M.toNat).tox_sents, .. } : ToxicityData) = _
    rw [h0]
    rfl
  · intro exper2
    show ({ tox_sents := (stateAt exper t M.toNat).tox_sents, .. } : ToxicityData) = _
    rw [h0]
    show _ = ({ tox_sents := (stateAt exper2 t M.toNat).tox_sents, .. } : ToxicityData)
    rw [h0]
    rfl

/-- Witness for C10 at max_iterations = -2. -/
theorem C10_nonpositive_iterations_witness :
    (-2 : ℤ) ≤ 0 ∧
    ToxicityAnalyzer.analyze_toxicity (fun _ _ => ⟨"g", 7, "sg"⟩) "orig"
      (-2) =
      { tox_sents := [], tox_scores := [], tox_texts := [],
        pos_tox_texts := [], pos_tox_sents := [], pos_tox_scores := [],
        text := "orig" } :=
  ⟨by decide,
    (C10_nonpositive_iterations (fun _ _ => ⟨"g", 7, "sg"⟩) "orig" (-2)
      (by decide)).1⟩

/-- Claim C4 (code bug): on the batch a, b, c where only the analysis of b
fails in every round (ok is the same stub each round), the retry loop of
analyze_texts_with_retry collects exactly the 2 successful results, but the
failure count it reports after the maximum 3 rounds is 8, not 1: the failing
text is appended to the very list the round iterates over, so each round
doubles the number of copies of the failing text (1 becomes 2, 2 becomes 4,
4 becomes 8), and the final report counts all 8 copies. -/
theorem C4_retry_failure_count :
    analyze_texts_with_retry (fun t => !(t == "b")) ["a", "b", "c"] 3 =
      (["a", "c"], 8) ∧
    (analyze_texts_with_retry (fun t => !(t == "b"))
      ["a", "b", "c"] 3).1.length = 2 := by
  decide

/-- Counterexample to claim C3 as stated: when every try of an experiment
fails, the source has no NoSuccessfulAttempt error anywhere; the selection
max over the empty generations list is reached and raises the generic
empty-sequence ValueError. -/
theorem C3_counterexample :
    perform_experiment (fun _ => none) = Except.error emptyMaxError ∧
    emptyMaxError ≠ "NoSuccessfulAttempt" :=
  ⟨rfl, by decide⟩

/-- Amended claim C3: when all K attempts of one experiment fail
(K = NUMBER_OF_TRIES_FOR_EVERY_CALL), the experiment does fail for that
iteration rather than returning a value, but the error is the generic
ValueError produced by Python max on the empty attempt set, not an explicit
NoSuccessfulAttempt error. -/
theorem C3_all_attempts_fail (tryOutcome : ℕ → Option Attempt)
    (h : ∀ i, i < NUMBER_OF_TRIES_FOR_EVERY_CALL → tryOutcome i = none) :
    perform_experiment tryOutcome = Except.error emptyMaxError := by
  have hnil : ((List.range NUMBER_OF_TRIES_FOR_EVERY_CALL).map
      tryOutcome).filterMap id = [] := by
    rw [List.filterMap_eq_nil_iff]
    intro a ha
    obtain ⟨i, hi, rfl⟩ := List.mem_map.mp ha
    exact h i (List.mem_range.mp hi)
  unfold perform_experiment
  rw [hnil]
  rfl

/-- Witness for the amended C3 at an always-failing try oracle. -/
theorem C3_all_attempts_fail_witness :
    perform_experiment (fun i => if i < 5 then none else none) =
      Except.error emptyMaxError :=
  C3_all_attempts_fail (fun i => if i < 5 then none else none)
    (fun i _ => by simp)

/-- Counterexample to claim C5 as stated: on a candidate whose sentence
split is empty (a whitespace-only candidate), scoring fails, but with the
very same generic empty-sequence ValueError that a fully failed experiment
produces, so the failure is not distinguishable from other empty-max
failures. -/
theorem C5_counterexample :
    evaluate_toxicity (fun _ => 0) "   " = Except.error emptyMaxError ∧
    perform_experiment (fun _ => none) = Except.error emptyMaxError :=
  ⟨rfl, rfl⟩

/-- Amended claim C5: for every candidate text whose sentence split is the
empty sequence, scoring the candidate fails for that call rather than
producing a value, but through the generic ValueError of Python max applied
to the empty score list, not through a distinguishable error. -/
theorem C5_empty_split_fails (score : String → ℚ) (text : String)
    (h : TextProcessor.split_text text = []) :
    evaluate_toxicity score text = Except.error emptyMaxError := by
  unfold evaluate_toxicity
  rw [h]
  rfl

/-- Witness for the amended C5 at the empty candidate text. -/
theorem C5_empty_split_fails_witness :
    TextProcessor.split_text "" = [] ∧
    evaluate_toxicity (fun _ => 1) "" = Except.error emptyMaxError :=
  ⟨by decide, C5_empty_split_fails (fun _ => 1) "" (by decide)⟩

/-! Lemmas about Python str.split used by the thinking-model stripping. -/

theorem splitOnFuel_ne_nil (sep : List Char) :
    ∀ (fuel : ℕ) (l acc : List Char), splitOnFuel sep fuel l acc ≠ [] := by
  intro fuel
  induction fuel with
  | zero => intro l acc; simp [splitOnFuel]
  | succ fuel ih =>
    intro l acc
    cases l with
    | nil => simp [splitOnFuel]
    | cons c rest =>
      simp only [splitOnFuel]
      by_cases h : (sep.isPrefixOf (c :: rest) && !sep.isEmpty) = true
      · rw [if_pos h]
        simp
      · rw [if_neg h]
        exact ih rest (c :: acc)

theorem isPrefixOf_decomp {sep l : List Char} (h : sep.isPrefixOf l = true) :
    ∃ u, l = sep ++ u ∧ l.drop sep.length = u := by
  induction sep generalizing l with
  | nil => exact ⟨l, rfl, by simp⟩
  | cons s ss ih =>
    cases l with
    | nil => simp [List.isPrefixOf] at h
    | cons c rest =>
      simp only [List.isPrefixOf, Bool.and_eq_true, beq_iff_eq] at h
      obtain ⟨rfl, h2⟩ := h
      obtain ⟨u, hu, hd⟩ := ih h2
      exact ⟨u, by rw [List.cons_append, ← hu], by simpa using hd⟩

theorem joinWith_splitOnFuel (sep : List Char) (hsep : sep ≠ []) :
    ∀ (fuel : ℕ) (l acc : List Char), l.length < fuel →
      joinWith sep (splitOnFuel sep fuel l acc) = acc.reverse ++ l := by
  intro fuel
  induction fuel with
  | zero => intro l acc h; omega
  | succ fuel ih =>
    intro l acc h
    cases l with
    | nil => simp [splitOnFuel, joinWith]
    | cons c rest =>
      simp only [splitOnFuel]
      by_cases hp : (sep.isPrefixOf (c :: rest) && !sep.isEmpty) = true
      · rw [if_pos hp]
        have hpre : sep.isPrefixOf (c :: rest) = true :=
          (Bool.and_eq_true _ _).mp hp |>.1
        obtain ⟨u, hu, hd⟩ := isPrefixOf_decomp hpre
        obtain ⟨p, ps, hps⟩ : ∃ p ps,
            splitOnFuel sep fuel ((c :: rest).drop sep.length) [] = p :: ps := by
          cases hsp : splitOnFuel sep fuel ((c :: rest).drop sep.length) [] with
          | nil => exact absurd hsp (splitOnFuel_ne_nil sep fuel _ [])
          | cons p ps => exact ⟨p, ps, rfl⟩
        rw [hps]
        show acc.reverse ++ sep ++ joinWith sep (p :: ps) = acc.reverse ++ (c :: rest)
        rw [← hps, hd, ih u []]
        · rw [hu]
          simp
        · have hlen : (c :: rest).length = sep.length + u.length := by
            rw [hu, List.length_append]
          have hsepl : 1 ≤ sep.length := by
            cases sep with
            | nil => exact absurd rfl hsep
            | cons _ _ => simp
          simp only [List.length_cons] at hlen h
          omega
      · rw [if_neg hp]
        rw [ih rest (c :: acc) (by simp at h ⊢; omega)]
        simp

theorem joinWith_pySplit (sep l : List Char) (hsep : sep ≠ []) :
    joinWith sep (pySplit sep l) = l := by
  have h := joinWith_splitOnFuel sep hsep (l.length + 1) l []
    (Nat.lt_succ_self _)
  simpa using h

/-- Counterexample to claim C7 as stated: when the end marker occurs twice,
the code keeps only the segment between the first and second occurrence
(Python split(end) index 1), not the remainder of the response after the end
marker, which here is the non-empty b-marker-c tail. -/
theorem C7_counterexample :
    stripThinking "<t>".data "</t>".data "<t>r</t>b</t>c".data = "b".data ∧
    "<t>r</t>b</t>c".data =
      "<t>r".data ++ "</t>".data ++ "b</t>c".data ∧
    "b".data ≠ "b</t>c".data := by
  decide

/-- Amended claim C7: when both markers are present and the end marker
occurs exactly once (its Python split has exactly two pieces u and v, and the
response is u, then the end marker, then v), the generator keeps the
remainder v after the end marker when it is non-empty and keeps the full raw
response when v is empty; a response lacking either marker is unchanged.
When the end marker occurs more than once, only the segment up to its next
occurrence is kept (see the counterexample). -/
theorem C7_thinking_strip (startM endM response u v : List Char)
    (hend : endM ≠ [])
    (hsplit : pySplit endM response = [u, v])
    (hstart : containsSub startM response = true)
    (hcend : containsSub endM response = true) :
    response = u ++ endM ++ v ∧
    stripThinking startM endM response = (if v.isEmpty then response else v) ∧
    ∀ r : List Char, (containsSub startM r && containsSub endM r) = false →
      stripThinking startM endM r = r := by
  refine ⟨?_, ?_, ?_⟩
  · have h := joinWith_pySplit endM response hend
    rw [hsplit] at h
    exact h.symm
  · unfold stripThinking
    rw [hstart, hcend, hsplit]
    rw [if_pos (show (true && true) = true from rfl)]
    cases v with
    | nil => rfl
    | cons a r => rfl
  · intro r hr
    unfold stripThinking
    rw [hr]
    rfl

/-- Witness for the amended C7 at a response with a single end marker and a
non-empty remainder. -/
theorem C7_thinking_strip_witness :
    pySplit "</t>".data "<t>r</t>bye".data = ["<t>r".data, "bye".data] ∧
    stripThinking "<t>".data "</t>".data "<t>r</t>bye".data = "bye".data :=
  ⟨by decide, by
    have h := (C7_thinking_strip "<t>".data "</t>".data "<t>r</t>bye".data
      "<t>r".data "bye".data (by decide) (by decide) (by decide)
      (by decide)).2.1
    simpa using h⟩

/-! Character-level lemmas about the sentence splitter, towards the
idempotence analysis (claims C6 and C8). -/

/-- Whether a character list starts with whitespace. -/
def headWs : List Char → Bool
  | [] => false
  | c :: _ => isWs c

/-- Whether a character list ends with whitespace (the default 'x' is not
whitespace, so the empty list answers false). -/
def lastWs (l : List Char) : Bool :=
  isWs (l.getLastD 'x')

/-- No position in the list is a split point: no whitespace character whose
preceding character (the parameter for the first position) is terminal
punctuation. -/
def noMatchFrom : Option Char → List Char → Bool
  | _, [] => true
  | prev, c :: rest => !(isWs c && prevTerm prev) && noMatchFrom (some c) rest

/-- The last character of the list, or the parameter when the list is
empty. -/
def lastOpt : Option Char → List Char → Option Char
  | o, [] => o
  | _, c :: r => lastOpt (some c) r

theorem lastWs_cons_ne (a : Char) (t : List Char) (h : t ≠ []) :
    lastWs (a :: t) = lastWs t := by
  unfold lastWs
  rw [getLastD_cons_ne a t 'x' h]

theorem dropWhile_headWs (l : List Char) : headWs (l.dropWhile isWs) = false := by
  induction l with
  | nil => rfl
  | cons c r ih =>
    by_cases h : isWs c = true
    · rw [List.dropWhile_cons_of_pos h]
      exact ih
    · rw [List.dropWhile_cons_of_neg h]
      show isWs c = false
      exact Bool.eq_false_iff.mpr h

theorem dropTrailingWs_lastWs (l : List Char) :
    lastWs (dropTrailingWs l) = false := by
  induction l with
  | nil => rfl
  | cons c r ih =>
    unfold dropTrailingWs
    cases hd : dropTrailingWs r with
    | nil =>
      by_cases h : isWs c = true
      · rw [if_pos h]
        rfl
      · rw [if_neg h]
        show isWs c = false
        exact Bool.eq_false_iff.mpr h
    | cons p ps =>
      rw [lastWs_cons_ne c (p :: ps) (by simp)]
      rw [← hd]
      exact ih

theorem dropTrailingWs_head (c : Char) (r : List Char) :
    dropTrailingWs (c :: r) = [] ∨ ∃ r2, dropTrailingWs (c :: r) = c :: r2 := by
  unfold dropTrailingWs
  cases hd : dropTrailingWs r with
  | nil =>
    by_cases h : isWs c = true
    · left
      rw [if_pos h]
    · right
      exact ⟨[], by rw [if_neg h]⟩
  | cons p ps => exact Or.inr ⟨p :: ps, rfl⟩

theorem stripChars_headWs (l : List Char) : headWs (stripChars l) = false := by
  unfold stripChars
  cases hdw : l.dropWhile isWs with
  | nil => rfl
  | cons c r =>
    have hc : isWs c = false := by
      have h := dropWhile_headWs l
      rw [hdw] at h
      exact h
    rcases dropTrailingWs_head c r with h | ⟨r2, h⟩
    · rw [h]
      rfl
    · rw [h]
      exact hc

theorem stripChars_lastWs (l : List Char) : lastWs (stripChars l) = false :=
  dropTrailingWs_lastWs _

theorem dropWhile_of_headWs {l : List Char} (h : headWs l = false) :
    l.dropWhile isWs = l := by
  cases l with
  | nil => rfl
  | cons c r =>
    rw [List.dropWhile_cons_of_neg]
    rw [show headWs (c :: r) = isWs c from rfl] at h
    simp [h]

theorem dropTrailingWs_of_lastWs :
    ∀ (l : List Char), lastWs l = false → dropTrailingWs l = l := by
  intro l
  induction l with
  | nil => intro _; rfl
  | cons c r ih =>
    intro h
    cases r with
    | nil =>
      have hc : isWs c = false := h
      unfold dropTrailingWs
      simp only [hc, Bool.false_eq_true, if_false]
      rfl
    | cons p ps =>
      have h2 : lastWs (p :: ps) = false := by
        rw [← lastWs_cons_ne c (p :: ps) (by simp)]
        exact h
      have ih2 := ih h2
      unfold dropTrailingWs
      rw [ih2]

theorem stripChars_of_ok {l : List Char} (h1 : headWs l = false)
    (h2 : lastWs l = false) : stripChars l = l := by
  unfold stripChars
  rw [dropWhile_of_headWs h1, dropTrailingWs_of_lastWs l h2]

theorem noMatchFrom_cons (o : Option Char) (c : Char) (r : List Char) :
    noMatchFrom o (c :: r) =
      (!(isWs c && prevTerm o) && noMatchFrom (some c) r) := rfl

theorem noMatchFrom_none_cons {o : Option Char} {c : Char} {r : List Char}
    (h : noMatchFrom o (c :: r) = true) : noMatchFrom (some c) r = true := by
  rw [noMatchFrom_cons, Bool.and_eq_true] at h
  exact h.2

theorem noMatchFrom_weaken {o : Option Char} {l : List Char}
    (h : noMatchFrom o l = true) : noMatchFrom none l = true := by
  cases l with
  | nil => rfl
  | cons c r =>
    rw [noMatchFrom_cons]
    rw [noMatchFrom_cons, Bool.and_eq_true] at h
    simp only [prevTerm, Bool.and_false, Bool.not_false, Bool.true_and]
    exact h.2

theorem noMatchFrom_dropWhile :
    ∀ (l : List Char) (o : Option Char), noMatchFrom o l = true →
      noMatchFrom none (l.dropWhile isWs) = true := by
  intro l
  induction l with
  | nil => intro o _; rfl
  | cons c r ih =>
    intro o h
    rw [noMatchFrom_cons, Bool.and_eq_true] at h
    by_cases hc : isWs c = true
    · rw [List.dropWhile_cons_of_pos hc]
      exact ih (some c) h.2
    · rw [List.dropWhile_cons_of_neg hc]
      rw [noMatchFrom_cons, Bool.and_eq_true]
      refine ⟨?_, h.2⟩
      have hc' : isWs c = false := Bool.eq_false_iff.mpr hc
      simp [hc']

theorem noMatchFrom_dropTrailingWs :
    ∀ (l : List Char) (o : Option Char), noMatchFrom o l = true →
      noMatchFrom o (dropTrailingWs l) = true := by
  intro l
  induction l with
  | nil => intro o _; rfl
  | cons c r ih =>
    intro o h
    rw [noMatchFrom_cons, Bool.and_eq_true] at h
    obtain ⟨h1, h2⟩ := h
    unfold dropTrailingWs
    cases hd : dropTrailingWs r with
    | nil =>
      by_cases hc : isWs c = true
      · rw [if_pos hc]
        rfl
      · rw [if_neg hc]
        rw [noMatchFrom_cons, Bool.and_eq_true]
        exact ⟨h1, rfl⟩
    | cons p ps =>
      rw [noMatchFrom_cons, Bool.and_eq_true]
      refine ⟨h1, ?_⟩
      have h3 := ih (some c) h2
      rw [hd] at h3
      exact h3

theorem noMatchFrom_dropLast :
    ∀ (l : List Char) (o : Option Char), noMatchFrom o l = true →
      noMatchFrom o l.dropLast = true := by
  intro l
  induction l with
  | nil => intro o _; rfl
  | cons c r ih =>
    intro o h
    cases r with
    | nil => rfl
    | cons p ps =>
      rw [noMatchFrom_cons, Bool.and_eq_true] at h
      show noMatchFrom o (c :: (p :: ps).dropLast) = true
      rw [noMatchFrom_cons, Bool.and_eq_true]
      exact ⟨h.1, ih (some c) h.2⟩

theorem noMatchFrom_append_single :
    ∀ (xs : List Char) (o : Option Char) (c : Char),
      noMatchFrom o xs = true → (isWs c && prevTerm (lastOpt o xs)) = false →
      noMatchFrom o (xs ++ [c]) = true := by
  intro xs
  induction xs with
  | nil =>
    intro o c _ h2
    show noMatchFrom o [c] = true
    rw [noMatchFrom_cons, Bool.and_eq_true]
    refine ⟨?_, rfl⟩
    rw [Bool.not_eq_true']
    exact h2
  | cons x r ih =>
    intro o c h1 h2
    rw [noMatchFrom_cons, Bool.and_eq_true] at h1
    rw [List.cons_append, noMatchFrom_cons, Bool.and_eq_true]
    exact ⟨h1.1, ih (some x) c h1.2 h2⟩

theorem lastOpt_append_single :
    ∀ (xs : List Char) (o : Option Char) (a : Char),
      lastOpt o (xs ++ [a]) = some a := by
  intro xs
  induction xs with
  | nil => intro o a; rfl
  | cons x r ih => intro o a; exact ih (some x) a

theorem lastOpt_reverse_cons (a : Char) (t : List Char) (o : Option Char) :
    lastOpt o ((a :: t).reverse) = some a := by
  rw [List.reverse_cons]
  exact lastOpt_append_single t.reverse o a

theorem reSplitGo_nil (inWs : Bool) (acc : List Char) :
    reSplitGo inWs [] acc = [acc.reverse] := rfl

theorem reSplitGo_skip (inWs : Bool) (c : Char) (rest acc : List Char)
    (h : (inWs && isWs c && acc.isEmpty) = true) :
    reSplitGo inWs (c :: rest) acc = reSplitGo true rest acc := by
  simp only [reSplitGo]
  rw [if_pos h]

theorem reSplitGo_emit (inWs : Bool) (c : Char) (rest acc : List Char)
    (h1 : (inWs && isWs c && acc.isEmpty) = false)
    (h2 : (isWs c && prevTerm acc.head?) = true) :
    reSplitGo inWs (c :: rest) acc = acc.reverse :: reSplitGo true rest [] := by
  simp only [reSplitGo]
  rw [if_neg (by simp [h1]), if_pos h2]

theorem reSplitGo_push (inWs : Bool) (c : Char) (rest acc : List Char)
    (h1 : (inWs && isWs c && acc.isEmpty) = false)
    (h2 : (isWs c && prevTerm acc.head?) = false) :
    reSplitGo inWs (c :: rest) acc = reSplitGo false rest (c :: acc) := by
  simp only [reSplitGo]
  rw [if_neg (by simp [h1]), if_neg (by simp [h2])]

theorem reSplitGo_ne_nil :
    ∀ (l : List Char) (inWs : Bool) (acc : List Char),
      reSplitGo inWs l acc ≠ [] := by
  intro l
  induction l with
  | nil => intro inWs acc; simp [reSplitGo_nil]
  | cons c rest ih =>
    intro inWs acc
    by_cases h1 : (inWs && isWs c && acc.isEmpty) = true
    · rw [reSplitGo_skip inWs c rest acc h1]
      exact ih true acc
    · have h1' := Bool.eq_false_iff.mpr h1
      by_cases h2 : (isWs c && prevTerm acc.head?) = true
      · rw [reSplitGo_emit inWs c rest acc h1' h2]
        simp
      · rw [reSplitGo_push inWs c rest acc h1' (Bool.eq_false_iff.mpr h2)]
        exact ih false (c :: acc)

theorem reSplitGo_noMatch :
    ∀ (l : List Char) (inWs : Bool) (acc : List Char),
      noMatchFrom none acc.reverse = true →
      ∀ p ∈ reSplitGo inWs l acc, noMatchFrom none p = true := by
  intro l
  induction l with
  | nil =>
    intro inWs acc hacc p hp
    rw [reSplitGo_nil, List.mem_singleton] at hp
    rw [hp]
    exact hacc
  | cons c rest ih =>
    intro inWs acc hacc p hp
    by_cases h1 : (inWs && isWs c && acc.isEmpty) = true
    · rw [reSplitGo_skip inWs c rest acc h1] at hp
      exact ih true acc hacc p hp
    · have h1' := Bool.eq_false_iff.mpr h1
      by_cases h2 : (isWs c && prevTerm acc.head?) = true
      · rw [reSplitGo_emit inWs c rest acc h1' h2] at hp
        rcases List.mem_cons.mp hp with rfl | hp
        · exact hacc
        · exact ih true [] rfl p hp
      · have h2' := Bool.eq_false_iff.mpr h2
        rw [reSplitGo_push inWs c rest acc h1' h2'] at hp
        refine ih false (c :: acc) ?_ p hp
        rw [List.reverse_cons]
        apply noMatchFrom_append_single acc.reverse none c hacc
        cases acc with
        | nil => simp [lastOpt, prevTerm]
        | cons a t =>
          rw [lastOpt_reverse_cons]
          exact h2'

theorem reSplitGo_dropLast_terminal :
    ∀ (l : List Char) (inWs : Bool) (acc : List Char),
      ∀ p ∈ (reSplitGo inWs l acc).dropLast,
        p ≠ [] ∧ isTerminal (p.getLastD ' ') = true := by
  intro l
  induction l with
  | nil =>
    intro inWs acc p hp
    rw [reSplitGo_nil] at hp
    simp at hp
  | cons c rest ih =>
    intro inWs acc p hp
    by_cases h1 : (inWs && isWs c && acc.isEmpty) = true
    · rw [reSplitGo_skip inWs c rest acc h1] at hp
      exact ih true acc p hp
    · have h1' := Bool.eq_false_iff.mpr h1
      by_cases h2 : (isWs c && prevTerm acc.head?) = true
      · rw [reSplitGo_emit inWs c rest acc h1' h2] at hp
        obtain ⟨q, qs, hq⟩ : ∃ q qs, reSplitGo true rest [] = q :: qs := by
          cases hr : reSplitGo true rest [] with
          | nil => exact absurd hr (reSplitGo_ne_nil rest true [])
          | cons q qs => exact ⟨q, qs, rfl⟩
        rw [hq] at hp
        rw [show (acc.reverse :: q :: qs).dropLast =
          acc.reverse :: (q :: qs).dropLast from rfl] at hp
        rcases List.mem_cons.mp hp with rfl | hp
        · -- the emitted piece: acc is non-empty with a terminal head
          have hterm : prevTerm acc.head? = true :=
            ((Bool.and_eq_true _ _).mp h2).2
          cases acc with
          | nil => simp [prevTerm] at hterm
          | cons a t =>
            refine ⟨by simp, ?_⟩
            rw [List.reverse_cons, getLastD_concat']
            exact hterm
        · have := ih true [] p
          rw [hq] at this
          exact this hp
      · have h2' := Bool.eq_false_iff.mpr h2
        rw [reSplitGo_push inWs c rest acc h1' h2'] at hp
        exact ih false (c :: acc) p hp

theorem reSplitGo_no_nl :
    ∀ (l : List Char) (inWs : Bool) (acc : List Char),
      (∀ c ∈ l, c ≠ '\n') → (∀ c ∈ acc, c ≠ '\n') →
      ∀ p ∈ reSplitGo inWs l acc, ∀ c ∈ p, c ≠ '\n' := by
  intro l
  induction l with
  | nil =>
    intro inWs acc _ hacc p hp
    rw [reSplitGo_nil, List.mem_singleton] at hp
    subst hp
    intro c hc
    exact hacc c (List.mem_reverse.mp hc)
  | cons c0 rest ih =>
    intro inWs acc hl hacc p hp
    have hl0 : c0 ≠ '\n' := hl c0 (by simp)
    have hlrest : ∀ c ∈ rest, c ≠ '\n' := fun c hc => hl c (by simp [hc])
    by_cases h1 : (inWs && isWs c0 && acc.isEmpty) = true
    · rw [reSplitGo_skip inWs c0 rest acc h1] at hp
      exact ih true acc hlrest hacc p hp
    · have h1' := Bool.eq_false_iff.mpr h1
      by_cases h2 : (isWs c0 && prevTerm acc.head?) = true
      · rw [reSplitGo_emit inWs c0 rest acc h1' h2] at hp
        rcases List.mem_cons.mp hp with rfl | hp
        · intro c hc
          exact hacc c (List.mem_reverse.mp hc)
        · exact ih true [] hlrest (by simp) p hp
      · have h2' := Bool.eq_false_iff.mpr h2
        rw [reSplitGo_push inWs c0 rest acc h1' h2'] at hp
        refine ih false (c0 :: acc) hlrest ?_ p hp
        intro c hc
        rcases List.mem_cons.mp hc with rfl | hc
        · exact hl0
        · exact hacc c hc

theorem isTerminal_not_ws {c : Char} (h : isTerminal c = true) :
    isWs c = false := by
  simp only [isTerminal, Bool.or_eq_true, decide_eq_true_eq] at h
  rcases h with (rfl | rfl) | rfl <;> decide

theorem getLastD_append_right {α : Type _} (pre y : List α) (d : α)
    (h : y ≠ []) : (pre ++ y).getLastD d = y.getLastD d := by
  induction pre with
  | nil => rfl
  | cons a t ih =>
    rw [List.cons_append, getLastD_cons_ne a (t ++ y) d]
    · exact ih
    · intro hc
      rw [List.append_eq_nil] at hc
      exact h hc.2

theorem dropWhile_getLastD (l : List Char) (d : Char)
    (h : l.dropWhile isWs ≠ []) :
    (l.dropWhile isWs).getLastD d = l.getLastD d := by
  obtain ⟨pre, hpre⟩ := (List.dropWhile_suffix (l := l) (p := isWs))
  conv_rhs => rw [← hpre]
  exact (getLastD_append_right pre _ d h).symm

theorem getD_eq_getD {α : Type _} :
    ∀ (l : List α) (i : ℕ) (d1 d2 : α), i < l.length →
      l.getD i d1 = l.getD i d2 := by
  intro l
  induction l with
  | nil => intro i d1 d2 h; simp at h
  | cons a t ih =>
    intro i d1 d2 h
    cases i with
    | zero => rfl
    | succ j =>
      simp only [List.getD_cons_succ]
      exact ih j d1 d2 (by simpa using h)

theorem getLastD_default_irrel {α : Type _} (l : List α) (d1 d2 : α)
    (h : l ≠ []) : l.getLastD d1 = l.getLastD d2 := by
  rw [getLastD_eq_getD l d1 h, getLastD_eq_getD l d2 h]
  apply getD_eq_getD
  cases l with
  | nil => exact absurd rfl h
  | cons a t => simp

theorem stripChars_terminal {x : List Char} (hx : x ≠ [])
    (ht : isTerminal (x.getLastD ' ') = true) :
    stripChars x ≠ [] ∧
    isTerminal ((stripChars x).getLastD ' ') = true := by
  have hlastmem : x.getLastD ' ' ∈ x := getLastD_mem x ' ' hx
  have hlastws : isWs (x.getLastD ' ') = false := isTerminal_not_ws ht
  have hdw : x.dropWhile isWs ≠ [] := by
    intro hc
    rw [List.dropWhile_eq_nil_iff] at hc
    have := hc _ hlastmem
    rw [hlastws] at this
    exact Bool.false_ne_true this
  have hglast : (x.dropWhile isWs).getLastD ' ' = x.getLastD ' ' :=
    dropWhile_getLastD x ' ' hdw
  have hlws : lastWs (x.dropWhile isWs) = false := by
    unfold lastWs
    rw [getLastD_default_irrel _ 'x' ' ' hdw, hglast]
    exact hlastws
  have hstrip : stripChars x = x.dropWhile isWs := by
    unfold stripChars
    exact dropTrailingWs_of_lastWs _ hlws
  rw [hstrip, hglast]
  exact ⟨hdw, ht⟩

theorem dropLast_concat' {α : Type _} (l : List α) (x : α) :
    (l ++ [x]).dropLast = l := by
  simp

theorem exists_concat_of_ne_nil {α : Type _} {l : List α} (h : l ≠ []) :
    ∃ mid lastp, l = mid ++ [lastp] := by
  induction l with
  | nil => exact absurd rfl h
  | cons a t ih =>
    cases t with
    | nil => exact ⟨[], a, rfl⟩
    | cons b r =>
      obtain ⟨mid, lastp, hml⟩ := ih (by simp)
      exact ⟨a :: mid, lastp, by rw [List.cons_append, ← hml]⟩

theorem processLine_decomp (line : List Char) :
    ∃ (mid : List (List Char)) (lastp : List Char),
      reSplitGo false line [] = mid ++ [lastp] ∧
      processLine line = mid.map stripChars ++
        (([lastp].map stripChars).filter (fun s => !s.isEmpty)) ∧
      (∀ p ∈ mid.map stripChars,
        p ≠ [] ∧ isTerminal (p.getLastD ' ') = true) := by
  obtain ⟨mid, lastp, hsplit⟩ :=
    exists_concat_of_ne_nil (reSplitGo_ne_nil line false [])
  have hmidterm : ∀ q ∈ mid, q ≠ [] ∧ isTerminal (q.getLastD ' ') = true := by
    intro q hq
    have := reSplitGo_dropLast_terminal line false [] q
    rw [hsplit, dropLast_concat'] at this
    exact this hq
  have hterm : ∀ p ∈ mid.map stripChars,
      p ≠ [] ∧ isTerminal (p.getLastD ' ') = true := by
    intro p hp
    rw [List.mem_map] at hp
    obtain ⟨q, hq, rfl⟩ := hp
    exact stripChars_terminal (hmidterm q hq).1 (hmidterm q hq).2
  refine ⟨mid, lastp, hsplit, ?_, hterm⟩
  unfold processLine
  rw [hsplit, List.map_append, List.filter_append]
  congr 1
  rw [List.filter_eq_self]
  intro p hp
  have := (hterm p hp).1
  simp [this]

theorem processLine_mem_ok (line p : List Char) (hp : p ∈ processLine line) :
    p ≠ [] ∧ headWs p = false ∧ lastWs p = false ∧
    noMatchFrom none p = true := by
  unfold processLine at hp
  rw [List.mem_filter] at hp
  obtain ⟨hmem, hne⟩ := hp
  rw [List.mem_map] at hmem
  obtain ⟨q, hq, rfl⟩ := hmem
  refine ⟨by simpa using hne, stripChars_headWs q, stripChars_lastWs q, ?_⟩
  have hnm := reSplitGo_noMatch line false [] rfl q hq
  unfold stripChars
  exact noMatchFrom_dropTrailingWs _ none (noMatchFrom_dropWhile q none hnm)

theorem processLine_allButLast_terminal (line : List Char) :
    ∀ p ∈ (processLine line).dropLast,
      p ≠ [] ∧ isTerminal (p.getLastD ' ') = true := by
  obtain ⟨mid, lastp, _, hpl, hterm⟩ := processLine_decomp line
  intro p hp
  rw [hpl] at hp
  cases hf : ([lastp].map stripChars).filter (fun s => !s.isEmpty) with
  | nil =>
    rw [hf, List.append_nil] at hp
    exact hterm p (List.dropLast_sublist _ |>.mem hp)
  | cons f fs =>
    have hfs : fs = [] := by
      have hlen2 : (f :: fs).length ≤ 1 := by
        rw [← hf]
        simpa using List.length_filter_le (fun s => !s.isEmpty)
          ([lastp].map stripChars)
      simp only [List.length_cons] at hlen2
      exact List.eq_nil_of_length_eq_zero (by omega)
    subst hfs
    rw [hf, dropLast_concat'] at hp
    exact hterm p hp

theorem processLine_no_nl (line : List Char) (hline : ∀ c ∈ line, c ≠ '\n') :
    ∀ p ∈ processLine line, ∀ c ∈ p, c ≠ '\n' := by
  intro p hp
  unfold processLine at hp
  rw [List.mem_filter] at hp
  obtain ⟨hmem, _⟩ := hp
  rw [List.mem_map] at hmem
  obtain ⟨q, hq, rfl⟩ := hmem
  have hq_nl := reSplitGo_no_nl line false [] hline (by simp) q hq
  intro c hc
  apply hq_nl
  -- membership survives stripping
  unfold stripChars at hc
  have h1 : c ∈ q.dropWhile isWs := by
    clear hq_nl hq
    generalize q.dropWhile isWs = y at hc
    induction y with
    | nil => simp [dropTrailingWs] at hc
    | cons a t ih =>
      unfold dropTrailingWs at hc
      cases hd : dropTrailingWs t with
      | nil =>
        rw [hd] at hc
        by_cases hws : isWs a = true
        · rw [if_pos hws] at hc
          simp at hc
        · rw [if_neg hws] at hc
          rw [List.mem_singleton] at hc
          simp [hc]
      | cons u us =>
        rw [hd] at hc
        rcases List.mem_cons.mp hc with rfl | hc
        · simp
        · rw [← hd] at hc
          exact List.mem_cons_of_mem a (ih hc)
  exact (List.dropWhile_sublist (l := q) (p := isWs)).mem h1

/-! Reconstruction: splitting the space-rejoined pieces gives the pieces
back, under the structural conditions that the first split guarantees for a
single-line input. -/

theorem reSplitGo_consume :
    ∀ (p acc rest : List Char),
      noMatchFrom acc.head? p = true →
      reSplitGo false (p ++ rest) acc =
        reSplitGo false rest (p.reverse ++ acc) := by
  intro p
  induction p with
  | nil => intro acc rest _; simp
  | cons c q ih =>
    intro acc rest h
    rw [noMatchFrom_cons, Bool.and_eq_true, Bool.not_eq_true'] at h
    rw [List.cons_append]
    rw [reSplitGo_push false c (q ++ rest) acc (by simp) h.1]
    rw [ih (c :: acc) rest h.2]
    congr 1
    simp

theorem reSplitGo_consume_true :
    ∀ (p rest : List Char), p ≠ [] → headWs p = false →
      noMatchFrom none p = true →
      reSplitGo true (p ++ rest) [] = reSplitGo false rest p.reverse := by
  intro p rest hne hhead hnm
  cases p with
  | nil => exact absurd rfl hne
  | cons c q =>
    have hc : isWs c = false := hhead
    have h1 : (true && isWs c && ([] : List Char).isEmpty) = false := by
      simp [hc]
    have h2 : (isWs c && prevTerm ([] : List Char).head?) = false := by
      simp [prevTerm]
    rw [List.cons_append, reSplitGo_push true c (q ++ rest) [] h1 h2]
    rw [reSplitGo_consume q [c] rest (noMatchFrom_none_cons hnm)]
    congr 1
    simp

theorem reSplitGo_boundary (rest acc : List Char)
    (hterm : prevTerm acc.head? = true) :
    reSplitGo false (' ' :: rest) acc =
      acc.reverse :: reSplitGo true rest [] := by
  apply reSplitGo_emit
  · simp
  · rw [hterm]
    decide

theorem joinSp_single (q : List Char) : joinSp [q] = q := rfl

theorem joinSp_cons (q q2 : List Char) (r : List (List Char)) :
    joinSp (q :: q2 :: r) = q ++ (' ' :: joinSp (q2 :: r)) := by
  show joinWith [' '] (q :: q2 :: r) = _
  rw [show joinWith [' '] (q :: q2 :: r) =
    q ++ [' '] ++ joinWith [' '] (q2 :: r) from rfl]
  simp [joinSp]

theorem reverse_head_prevTerm {q : List Char} (hne : q ≠ [])
    (ht : isTerminal (q.getLastD ' ') = true) :
    prevTerm q.reverse.head? = true := by
  obtain ⟨mid, lastc, rfl⟩ := exists_concat_of_ne_nil hne
  rw [List.reverse_append]
  show isTerminal lastc = true
  rw [getLastD_concat'] at ht
  exact ht

theorem map_eq_self {α : Type _} (f : α → α) :
    ∀ (l : List α), (∀ a ∈ l, f a = a) → l.map f = l := by
  intro l
  induction l with
  | nil => intro _; rfl
  | cons a t ih =>
    intro h
    rw [List.map_cons, h a (by simp), ih (fun x hx => h x (by simp [hx]))]

theorem reconstructGo :
    ∀ (r : List (List Char)) (q : List Char),
      (∀ p ∈ q :: r, p ≠ [] ∧ headWs p = false ∧ lastWs p = false ∧
        noMatchFrom none p = true) →
      (∀ p ∈ (q :: r).dropLast, isTerminal (p.getLastD ' ') = true) →
      reSplitGo false (joinSp (q :: r)) [] = q :: r ∧
      reSplitGo true (joinSp (q :: r)) [] = q :: r := by
  intro r
  induction r with
  | nil =>
    intro q hok _
    obtain ⟨hne, hhead, _, hnm⟩ := hok q (by simp)
    constructor
    · have h := reSplitGo_consume q [] [] hnm
      rw [List.append_nil] at h
      rw [joinSp_single, h, reSplitGo_nil]
      simp
    · have h := reSplitGo_consume_true q [] hne hhead hnm
      rw [List.append_nil] at h
      rw [joinSp_single, h, reSplitGo_nil]
      simp
  | cons q2 r2 ih =>
    intro q hok hterm
    obtain ⟨hne, hhead, _, hnm⟩ := hok q (by simp)
    have hqterm : isTerminal (q.getLastD ' ') = true := by
      apply hterm q
      rw [show (q :: q2 :: r2).dropLast = q :: (q2 :: r2).dropLast from rfl]
      simp
    have hrevterm : prevTerm q.reverse.head? = true :=
      reverse_head_prevTerm hne hqterm
    have hih := ih q2
      (fun p hp => hok p (List.mem_cons_of_mem q hp))
      (fun p hp => hterm p (by
        rw [show (q :: q2 :: r2).dropLast = q :: (q2 :: r2).dropLast from rfl]
        exact List.mem_cons_of_mem q hp))
    constructor
    · rw [joinSp_cons]
      have h := reSplitGo_consume q [] (' ' :: joinSp (q2 :: r2)) hnm
      rw [List.append_nil] at h
      rw [h, reSplitGo_boundary _ _ hrevterm, hih.2]
      simp
    · rw [joinSp_cons]
      rw [reSplitGo_consume_true q (' ' :: joinSp (q2 :: r2)) hne hhead hnm]
      rw [reSplitGo_boundary _ _ hrevterm, hih.2]
      simp

theorem splitLines_no_nl :
    ∀ (l : List Char), (∀ c ∈ l, c ≠ '\n') → splitLines l = [l] := by
  intro l
  induction l with
  | nil => intro _; rfl
  | cons c r ih =>
    intro h
    unfold splitLines
    rw [if_neg (h c (by simp))]
    rw [ih (fun a ha => h a (by simp [ha]))]

theorem joinSp_no_nl :
    ∀ (qs : List (List Char)), (∀ p ∈ qs, ∀ c ∈ p, c ≠ '\n') →
      ∀ c ∈ joinSp qs, c ≠ '\n' := by
  intro qs
  induction qs with
  | nil => intro _ c hc; simp [joinSp, joinWith] at hc
  | cons q r ih =>
    intro h c hc
    cases r with
    | nil =>
      rw [joinSp_single] at hc
      exact h q (by simp) c hc
    | cons q2 r2 =>
      rw [joinSp_cons] at hc
      rcases List.mem_append.mp hc with hc | hc
      · exact h q (by simp) c hc
      · rcases List.mem_cons.mp hc with rfl | hc
        · decide
        · exact ih (fun p hp => h p (List.mem_cons_of_mem q hp)) c hc

theorem endsDotDot_decomp :
    ∀ (l : List Char), endsDotDot l = true → ∃ w, l = w ++ ['.', '.'] := by
  intro l
  induction l with
  | nil => intro h; exact absurd h (by decide)
  | cons a t ih =>
    intro h
    cases t with
    | nil => simp [endsDotDot] at h
    | cons b rest =>
      by_cases hr : rest.isEmpty = true
      · have hrn : rest = [] := by simpa using hr
        subst hrn
        have h2 : (decide (a = '.') && decide (b = '.')) = true := by
          simpa [endsDotDot] using h
        rw [Bool.and_eq_true, decide_eq_true_eq, decide_eq_true_eq] at h2
        exact ⟨[], by rw [h2.1, h2.2]; rfl⟩
      · have h3 : endsDotDot (b :: rest) = true := by
          unfold endsDotDot at h
          rw [if_neg hr] at h
          exact h
        obtain ⟨w, hw⟩ := ih h3
        exact ⟨a :: w, by rw [List.cons_append, ← hw]⟩

theorem getLast?_mem' {α : Type _} :
    ∀ (l : List α) (a : α), l.getLast? = some a → a ∈ l := by
  intro l
  induction l with
  | nil => intro a h; simp at h
  | cons x t ih =>
    intro a h
    cases t with
    | nil =>
      simp only [List.getLast?_singleton, Option.some.injEq] at h
      simp [h]
    | cons y r =>
      rw [List.getLast?_cons_cons] at h
      exact List.mem_cons_of_mem x (ih a h)

theorem getLast?_map' {α β : Type _} (f : α → β) :
    ∀ (l : List α), (l.map f).getLast? = l.getLast?.map f := by
  intro l
  induction l with
  | nil => rfl
  | cons a t ih =>
    cases t with
    | nil => rfl
    | cons b r =>
      rw [List.map_cons, List.map_cons, List.getLast?_cons_cons,
        List.getLast?_cons_cons, ← List.map_cons]
      exact ih

theorem headWs_dropLast {l : List Char} (h : headWs l = false) :
    headWs l.dropLast = false := by
  cases l with
  | nil => rfl
  | cons a t =>
    cases t with
    | nil => rfl
    | cons b r => exact h

theorem splitRaw_mem_ok (t p : List Char) (hp : p ∈ splitRaw t) :
    p ≠ [] ∧ headWs p = false ∧ lastWs p = false ∧
    noMatchFrom none p = true := by
  unfold splitRaw at hp
  rw [List.mem_flatten] at hp
  obtain ⟨lp, hlp, hp⟩ := hp
  rw [List.mem_map] at hlp
  obtain ⟨line, _, rfl⟩ := hlp
  exact processLine_mem_ok line p hp

theorem dotdot_last_ok {l : List Char}
    (hok : l ≠ [] ∧ headWs l = false ∧ lastWs l = false ∧
      noMatchFrom none l = true)
    (hdd : endsDotDot l = true) :
    l.dropLast ≠ [] ∧ headWs l.dropLast = false ∧
    lastWs l.dropLast = false ∧ noMatchFrom none l.dropLast = true := by
  obtain ⟨w, rfl⟩ := endsDotDot_decomp l hdd
  have hdrop : (w ++ ['.', '.']).dropLast = w ++ ['.'] := by
    rw [show w ++ ['.', '.'] = (w ++ ['.']) ++ ['.'] by simp, dropLast_concat']
  refine ⟨by rw [hdrop]; simp, ?_, ?_, ?_⟩
  · rw [hdrop]
    cases w with
    | nil => decide
    | cons c w2 => exact hok.2.1
  · rw [hdrop]
    unfold lastWs
    rw [getLastD_concat']
    decide
  · exact noMatchFrom_dropLast _ none hok.2.2.2

theorem splitTextChars_eq_of_some {t l : List Char}
    (h : (splitRaw t).getLast? = some l) :
    splitTextChars t =
      if endsDotDot l then (splitRaw t).dropLast ++ [l.dropLast]
      else splitRaw t := by
  simp only [splitTextChars]
  rw [h]

theorem splitTextChars_eq_of_none {t : List Char}
    (h : (splitRaw t).getLast? = none) : splitTextChars t = splitRaw t := by
  simp only [splitTextChars]
  rw [h]

theorem splitTextChars_mem_ok (t p : List Char) (hp : p ∈ splitTextChars t) :
    p ≠ [] ∧ headWs p = false ∧ lastWs p = false ∧
    noMatchFrom none p = true := by
  cases hlast : (splitRaw t).getLast? with
  | none =>
    rw [splitTextChars_eq_of_none hlast] at hp
    exact splitRaw_mem_ok t p hp
  | some l =>
    rw [splitTextChars_eq_of_some hlast] at hp
    by_cases hdd : endsDotDot l = true
    · rw [if_pos hdd] at hp
      rcases List.mem_append.mp hp with hp | hp
      · exact splitRaw_mem_ok t p (List.dropLast_sublist _ |>.mem hp)
      · rw [List.mem_singleton] at hp
        subst hp
        exact dotdot_last_ok (splitRaw_mem_ok t l (getLast?_mem' _ l hlast))
          hdd
    · rw [if_neg hdd] at hp
      exact splitRaw_mem_ok t p hp

theorem splitRaw_single_line (t : List Char) (h : ∀ c ∈ t, c ≠ '\n') :
    splitRaw t = processLine t := by
  unfold splitRaw
  rw [splitLines_no_nl t h]
  simp

theorem splitTextChars_dropLast_terminal (t : List Char)
    (hnl : ∀ c ∈ t, c ≠ '\n') :
    ∀ p ∈ (splitTextChars t).dropLast, isTerminal (p.getLastD ' ') = true := by
  intro p hp
  cases hlast : (splitRaw t).getLast? with
  | none =>
    rw [splitTextChars_eq_of_none hlast, splitRaw_single_line t hnl] at hp
    exact (processLine_allButLast_terminal t p hp).2
  | some l =>
    rw [splitTextChars_eq_of_some hlast, splitRaw_single_line t hnl] at hp
    by_cases hdd : endsDotDot l = true
    · rw [if_pos hdd, dropLast_concat'] at hp
      exact (processLine_allButLast_terminal t p hp).2
    · rw [if_neg hdd] at hp
      exact (processLine_allButLast_terminal t p hp).2

theorem splitTextChars_no_nl (t : List Char) (hnl : ∀ c ∈ t, c ≠ '\n') :
    ∀ p ∈ splitTextChars t, ∀ c ∈ p, c ≠ '\n' := by
  intro p hp
  have hline : ∀ q ∈ processLine t, ∀ c ∈ q, c ≠ '\n' :=
    processLine_no_nl t hnl
  cases hlast : (splitRaw t).getLast? with
  | none =>
    rw [splitTextChars_eq_of_none hlast, splitRaw_single_line t hnl] at hp
    exact hline p hp
  | some l =>
    rw [splitTextChars_eq_of_some hlast, splitRaw_single_line t hnl] at hp
    have hlmem : l ∈ processLine t := by
      rw [splitRaw_single_line t hnl] at hlast
      exact getLast?_mem' _ l hlast
    by_cases hdd : endsDotDot l = true
    · rw [if_pos hdd] at hp
      rcases List.mem_append.mp hp with hp | hp
      · exact hline p (List.dropLast_sublist _ |>.mem hp)
      · rw [List.mem_singleton] at hp
        subst hp
        intro c hc
        exact hline l hlmem c (List.dropLast_sublist _ |>.mem hc)
    · rw [if_neg hdd] at hp
      exact hline p hp

theorem splitTextChars_joinSp_eq (qs : List (List Char))
    (hok : ∀ p ∈ qs, p ≠ [] ∧ headWs p = false ∧ lastWs p = false ∧
      noMatchFrom none p = true)
    (hterm : ∀ p ∈ qs.dropLast, isTerminal (p.getLastD ' ') = true)
    (hnl : ∀ p ∈ qs, ∀ c ∈ p, c ≠ '\n')
    (hdd : ∀ l, qs.getLast? = some l → endsDotDot l = false) :
    splitTextChars (joinSp qs) = qs := by
  cases qs with
  | nil => rfl
  | cons q r =>
    have hrecon := (reconstructGo r q hok hterm).1
    have hpl : processLine (joinSp (q :: r)) = q :: r := by
      unfold processLine
      rw [hrecon]
      rw [map_eq_self stripChars (q :: r)
        (fun p hp => stripChars_of_ok (hok p hp).2.1 (hok p hp).2.2.1)]
      rw [List.filter_eq_self.mpr]
      intro p hp
      have := (hok p hp).1
      simp [this]
    have hnlj : ∀ c ∈ joinSp (q :: r), c ≠ '\n' := joinSp_no_nl _ hnl
    cases hlast : (q :: r).getLast? with
    | none => simp at hlast
    | some l =>
      have hlast2 : (splitRaw (joinSp (q :: r))).getLast? = some l := by
        rw [splitRaw_single_line _ hnlj, hpl]
        exact hlast
      rw [splitTextChars_eq_of_some hlast2]
      rw [if_neg (by simp [hdd l hlast])]
      rw [splitRaw_single_line _ hnlj, hpl]

/-- Counterexample to claim C6 as stated: splitting the space-rejoined split
is not idempotent in general.  A two-line input collapses into one sentence
after rejoining (the newline boundary is lost because the second line does
not start after terminal punctuation), and a sentence ending in three dots is
trimmed to two dots by the first split and trimmed again by the second. -/
theorem C6_counterexample :
    TextProcessor.split_text "a\nb" = ["a", "b"] ∧
    TextProcessor.split_text
      (joinWithSpace (TextProcessor.split_text "a\nb")) = ["a b"] ∧
    TextProcessor.split_text "a..." = ["a.."] ∧
    TextProcessor.split_text
      (joinWithSpace (TextProcessor.split_text "a...")) = ["a."] := by
  refine ⟨by decide, by decide, by decide, by decide⟩

/-- Amended claim C6: sentence splitting is idempotent under space-rejoined
concatenation for inputs without newline characters whose final split
sentence does not end in a doubled period: for such texts, splitting the
string obtained by joining split_text t with single spaces reproduces
split_text t exactly.  (The counterexample shows both restrictions are
forced: a newline boundary is lost by rejoining, and a ".."-final sentence
is trimmed a second time.) -/
theorem C6_idempotent_amended (t : String)
    (h1 : ('\n' : Char) ∉ t.data)
    (h2 : (TextProcessor.split_text t).getLast?.all
      (fun s => !endsDD s) = true) :
    TextProcessor.split_text (joinWithSpace (TextProcessor.split_text t)) =
      TextProcessor.split_text t := by
  have hnl : ∀ c ∈ t.data, c ≠ '\n' := fun c hc he => h1 (he ▸ hc)
  have hdd : ∀ l, (splitTextChars t.data).getLast? = some l →
      endsDotDot l = false := by
    intro l hlast
    unfold TextProcessor.split_text at h2
    rw [getLast?_map' _ (splitTextChars t.data), hlast] at h2
    have h2' : (!endsDD (⟨l⟩ : String)) = true := h2
    rw [Bool.not_eq_true'] at h2'
    exact h2'
  have hchar : splitTextChars (joinSp (splitTextChars t.data)) =
      splitTextChars t.data :=
    splitTextChars_joinSp_eq (splitTextChars t.data)
      (splitTextChars_mem_ok t.data)
      (splitTextChars_dropLast_terminal t.data hnl)
      (splitTextChars_no_nl t.data hnl)
      hdd
  show ((splitTextChars (String.data
    ⟨joinSp (((splitTextChars t.data).map
      (fun l => (⟨l⟩ : String))).map String.data)⟩)).map
        (fun l => (⟨l⟩ : String))) =
    (splitTextChars t.data).map (fun l => (⟨l⟩ : String))
  have hdata : (((splitTextChars t.data).map
      (fun l => (⟨l⟩ : String))).map String.data) = splitTextChars t.data := by
    rw [List.map_map]
    exact map_eq_self _ _ (fun a _ => rfl)
  rw [hdata]
  rw [show String.data ⟨joinSp (splitTextChars t.data)⟩ =
    joinSp (splitTextChars t.data) from rfl]
  rw [hchar]

/-- Witness for the amended C6 at a two-sentence single-line text. -/
theorem C6_idempotent_amended_witness :
    ('\n' : Char) ∉ "Hi there. Bye.".data ∧
    TextProcessor.split_text "Hi there. Bye." = ["Hi there.", "Bye."] ∧
    TextProcessor.split_text (joinWithSpace
      (TextProcessor.split_text "Hi there. Bye.")) =
      TextProcessor.split_text "Hi there. Bye." :=
  ⟨by decide, by decide,
    C6_idempotent_amended "Hi there. Bye." (by decide) (by decide)⟩

/-- Counterexample to claim C8 as stated: a doubled '!' is not trimmed by
split_text, although the claim requires trimming for any doubled terminal
punctuation mark '.', '!' or '?'; only the doubled '.' is handled. -/
theorem C8_counterexample :
    TextProcessor.split_text "hi!!" = ["hi!!"] ∧
    TextProcessor.split_text "a.." = ["a."] ∧
    ("hi!!" : String) ≠ "hi!" := by
  refine ⟨by decide, by decide, by decide⟩

/-- Amended claim C8: split_text returns an ordered sequence of non-empty
whitespace-trimmed sentences and the empty input yields the empty sequence;
the doubled-punctuation edge rule holds only for a doubled period: when the
final raw sentence ends with "..", its final character is dropped, and
otherwise (including doubled '!' or '?') the raw sentences are returned
unchanged. -/
theorem C8_trimmed_sentences (t : String) :
    (∀ s ∈ TextProcessor.split_text t, s ≠ "" ∧ stripString s = s) ∧
    TextProcessor.split_text "" = [] ∧
    (∀ l, (splitRaw t.data).getLast? = some l → endsDotDot l = true →
      TextProcessor.split_text t =
        ((splitRaw t.data).dropLast ++ [l.dropLast]).map
          (fun c => (⟨c⟩ : String))) ∧
    (∀ l, (splitRaw t.data).getLast? = some l → endsDotDot l = false →
      TextProcessor.split_text t =
        (splitRaw t.data).map (fun c => (⟨c⟩ : String))) := by
  refine ⟨?_, by decide, ?_, ?_⟩
  · intro s hs
    unfold TextProcessor.split_text at hs
    rw [List.mem_map] at hs
    obtain ⟨p, hp, rfl⟩ := hs
    obtain ⟨hne, hhead, hlast, _⟩ := splitTextChars_mem_ok t.data p hp
    constructor
    · intro hc
      exact hne (congrArg String.data hc)
    · show (⟨stripChars p⟩ : String) = ⟨p⟩
      rw [stripChars_of_ok hhead hlast]
  · intro l hlast hdd
    unfold TextProcessor.split_text
    rw [splitTextChars_eq_of_some hlast, if_pos hdd]
  · intro l hlast hdd
    unfold TextProcessor.split_text
    rw [splitTextChars_eq_of_some hlast, if_neg (by simp [hdd])]

/-- Witness for the amended C8: a text whose raw final sentence ends with
"..", which is trimmed by one character, while the other sentence is kept;
all output sentences are non-empty and trimmed. -/
theorem C8_trimmed_sentences_witness :
    (splitRaw "hi. yo...".data).getLast? = some "yo...".data ∧
    endsDotDot "yo...".data = true ∧
    TextProcessor.split_text "hi. yo..." = ["hi.", "yo.."] := by
  refine ⟨by decide, by decide, ?_⟩
  have h := (C8_trimmed_sentences "hi. yo...").2.2.1 "yo...".data
    (by decide) (by decide)
  rw [h]
  decide

end Codot
